import Mathlib

/-!
Verification development for a static markup compiler (lexer, blueprint
store, expander, fixed-point compile loop, serializer).

The definitions below are a shallow embedding of the program's source:

* `parse.rs`   — the string lexer (`parse_html` and its helper parsers),
  the token type `HtmlElement`, the serializer, and the conversion of
  lexer errors into trace errors;
* `compile.rs` — balanced-span extraction (`parse_element`), the expander
  (`expand_template`), one compilation pass (`compilation_pass`) and the
  bounded fixed-point driver (`compile_source`);
* `trace.rs`   — the error type (`TraceError`) and its kinds.

Modelling conventions:

* Rust `String` / `&str` values are modelled as Lean `String`s; the lexer
  itself works on `List Char` (the character sequence of the input).
* Rust `HashMap<String, String>` is modelled as an association list
  (`Attributes`); `insert` replaces an existing binding in place and
  otherwise appends, and iteration follows the list order (a fixed order
  standing in for Rust's unspecified hash order).
* Rust's `char::is_whitespace` is modelled on its ASCII part (inputs of
  interest are ASCII).
* Loops are modelled with an explicit fuel argument where the recursion is
  not structural; the fuel supplied at every call site exceeds the length
  of the consumed input, so the fuel-exhaustion branch is unreachable and is
  mapped to a distinguished error value.
* A Rust panic (out-of-bounds slice index) is a distinguished outcome,
  kept separate from `None` / `Err` returns.
-/

/-! ### trace.rs: error kinds and trace errors -/

/-- `trace.rs` `ErrorKind`: the error taxonomy of the program.
Constructors are lower-cased renderings of `IO`, `Parsing`, `Compilation`,
`Unknown`. -/
inductive ErrorKind where
  | io
  | parsing
  | compilation
  | unknown
deriving DecidableEq, Repr

/-- `trace.rs` `Error`: a kind, a reason, and a stack of context frames. -/
structure TraceError where
  kind : ErrorKind
  reason : String
  backtrace : List String
deriving DecidableEq, Repr

/-- `trace.rs` `compile_error`. -/
def compile_error (reason : String) : TraceError :=
  { kind := ErrorKind.compilation, reason := reason, backtrace := [] }

/-- `trace.rs` `WithContext for Option`: a `None` is converted into an
`Unknown` error with reason "Missing expected value"; note that the
context string passed to `.ctx(...)` is dropped (the `Option` instance
never pushes it onto the backtrace). -/
def optionCtxError : TraceError :=
  { kind := ErrorKind.unknown, reason := "Missing expected value", backtrace := [] }

/-! ### parse.rs: tokens, parse errors -/

/-- `parse.rs` `Attributes = HashMap<String, String>`, modelled as an
association list. -/
abbrev Attributes := List (String × String)

/-- Lookup in an attribute map (`HashMap::get`). -/
def attrGet (m : Attributes) (k : String) : Option String :=
  (m.find? (fun p => p.1 == k)).map Prod.snd

/-- Insertion into an attribute map (`HashMap::insert`): replaces an
existing binding for the key, otherwise appends. -/
def attrInsert (m : Attributes) (k v : String) : Attributes :=
  if m.any (fun p => p.1 == k) then
    m.map (fun p => if p.1 == k then (k, v) else p)
  else
    m ++ [(k, v)]

/-- `parse.rs` `HtmlElement`: the token type of the lexer. -/
inductive HtmlElement where
  | DocType
  | Comment (text : String)
  | OpenTag (name : String) (attributes : Attributes) ( is_empty : Bool)
  | CloseTag (name : String)
  | Text (text : String)
  | Script (attributes : Attributes) (contents : String)
  | Style (attributes : Attributes) (contents : String)
  | Directive (name : String) (attributes : Attributes) (contents : String)
deriving DecidableEq, Repr

/-- `parse.rs` `ErrorKind` (the lexer's own error kinds). -/
inductive ParseErrorKind where
  | illegal
  | unbalancedTags
  | memoryLimit
deriving DecidableEq, Repr

/-- `parse.rs` `Error`: lexer error with character offset and 1-based
row/column. -/
structure ParseError where
  kind : ParseErrorKind
  char_index : Nat
  row : Nat
  column : Nat
deriving DecidableEq, Repr

/-- `parse.rs` `impl From<Error> for crate::trace::Error`: every lexer
error (including the `MemoryLimit` one) is converted to a trace error of
kind `Parsing`, with a fixed reason string per lexer kind and a single
backtrace frame naming the line and column. -/
def toTraceError (e : ParseError) : TraceError :=
  { kind := ErrorKind.parsing
    reason :=
      match e.kind with
      | ParseErrorKind.illegal => "Illegal character encountered"
      | ParseErrorKind.unbalancedTags => "Unbalanced open and close tags"
      | ParseErrorKind.memoryLimit => "Ran out of memory"
    backtrace := ["at line " ++ toString e.row ++ " column " ++ toString e.column] }

/-- `parse.rs` `LEXEME_MEMORY_LIMIT`. -/
def LEXEME_MEMORY_LIMIT : Nat := 65535

/-- `compile.rs` `RECURSION_LIMIT`. -/
def RECURSION_LIMIT : Nat := 256

/-! ### compile.rs: elements, balanced-span extraction -/

/-- `compile.rs` `Element`: attributes of the opening tag plus the flat
token span strictly between the opening and closing tokens. -/
structure Element where
  attributes : Attributes
  child_span : List HtmlElement
deriving DecidableEq, Repr

/-- `compile.rs` `Templates = HashMap<String, Element>`, as an association
list. -/
abbrev Templates := List (String × Element)

/-- `HashMap::get` on a template store. -/
def templatesGet (ts : Templates) (n : String) : Option Element :=
  (ts.find? (fun p => p.1 == n)).map Prod.snd

/-- Outcome of `parse_element`: success with the element and remaining
slice, a `None` return, or a Rust panic (out-of-bounds slice index). -/
inductive ElemResult where
  | ok (e : Element) (rest : List HtmlElement)
  | fail
  | panic
deriving DecidableEq, Repr

/-- Outcome of the depth-counting loop inside `parse_element`:
`breakAt e` is the `break` with the current value of `end`; `retNone` is
the `return None` taken at a non-tag token at depth zero; `exhausted e`
means the slice ran out with the final value of `end`. -/
inductive PeLoopResult where
  | breakAt (e : Nat)
  | retNone
  | exhausted (e : Nat)
deriving DecidableEq, Repr

/-- The `for lm in tail` loop of `parse_element`: depth counter seeded at
0 (the first token, a non-empty open tag, brings it to 1), `end` seeded at
1 and incremented at the end of each non-breaking iteration. -/
def peLoop : List HtmlElement → Int → Nat → PeLoopResult
  | [], _, e => PeLoopResult.exhausted e
  | lm :: rest, depth, e =>
    match lm with
    | HtmlElement.OpenTag _ _ ie =>
      peLoop rest (if ie then depth else depth + 1) (e + 1)
    | HtmlElement.CloseTag _ =>
      if depth - 1 = 0 then PeLoopResult.breakAt e
      else peLoop rest (depth - 1) (e + 1)
    | _ =>
      if depth = 0 then PeLoopResult.retNone
      else peLoop rest depth (e + 1)

/-- `compile.rs` `parse_element`: balanced-span extraction. On a slice
starting with a self-closing/void open tag, consume one token with an
empty body. On a slice starting with a non-empty open tag, run the depth
counter; on `break` return the span strictly between the opening and the
terminating close token (`tail[1..end-1]`) and the remainder
(`tail[end..]`). If the loop exhausts the slice, `end` has become
`tail.len() + 1` and the remainder slice `&tail[end..]` is out of bounds:
a panic. -/
def parse_element (tail : List HtmlElement) : ElemResult :=
  match tail with
  | HtmlElement.OpenTag _ attrs true :: rest => ElemResult.ok ⟨attrs, []⟩ rest
  | HtmlElement.OpenTag _ attrs false :: _ =>
    match peLoop tail 0 1 with
    | PeLoopResult.breakAt e =>
      ElemResult.ok ⟨attrs, (tail.drop 1).take (e - 2)⟩ (tail.drop e)
    | PeLoopResult.retNone => ElemResult.fail
    | PeLoopResult.exhausted _ => ElemResult.panic
  | _ => ElemResult.fail

/-! ### compile.rs: expander -/

/-- Rust `str::strip_prefix('@')` as used by the expander: the variable
name when the value carries the `@` marker. -/
def stripAtMarker (v : String) : Option String :=
  match v.data with
  | '@' :: tl => some (String.mk tl)
  | _ => none

/-- One iteration of the attribute rebuilding loop of `expand_template`:
for a `(key, value)` pair of the definition's open tag, a value of the
form `@name` is a variable reference — if the invocation (`base`) carries
`name`, insert `name ↦ base[name]` (note: the key inserted is the
variable name `at_key`, not the definition's `key`), otherwise insert
nothing; a literal value is copied as `key ↦ value`. -/
def expandAttrStep (base : Attributes) (acc : Attributes) (kv : String × String) :
    Attributes :=
  match stripAtMarker kv.2 with
  | some at_key =>
    match attrGet base at_key with
    | some at_value => attrInsert acc at_key at_value
    | none => acc
  | none => attrInsert acc kv.1 kv.2

/-- The attribute rebuilding loop of `expand_template`. -/
def expand_attrs (base : Attributes) (attributes : Attributes) : Attributes :=
  attributes.foldl (expandAttrStep base) []

/-- One iteration of the `expand_template` walk: open tags get rebuilt
attributes, a `Directive` named "children" is replaced by the
invocation's `child_span`, everything else is copied. -/
def expandStep (base : Element) (output : List HtmlElement) (el : HtmlElement) :
    List HtmlElement :=
  match el with
  | HtmlElement.OpenTag name attributes ie =>
    output ++ [HtmlElement.OpenTag name (expand_attrs base.attributes attributes) ie]
  | HtmlElement.Directive name attributes contents =>
    if name = "children" then output ++ base.child_span
    else output ++ [HtmlElement.Directive name attributes contents]
  | _ => output ++ [el]

/-- `compile.rs` `expand_template`: walk the definition's `child_span`
token by token. -/
def expand_template (base : Element) (template : Element) : List HtmlElement :=
  template.child_span.foldl (expandStep base) []

/-! ### compile.rs: compilation pass and driver -/

/-- Errors of the compile phase: a propagated trace error, a Rust panic
(from `parse_element`), or the unreachable fuel-exhaustion marker. -/
inductive CompErr where
  | terr (e : TraceError)
  | panic
  | fuelOut
deriving DecidableEq, Repr

/-- Result type of the compile phase. -/
inductive CResult (α : Type) where
  | ok (a : α)
  | error (e : CompErr)
deriving DecidableEq, Repr

/-- The scanning loop of `compilation_pass`, with fuel (each iteration
consumes at least one token, so `source.length + 1` fuel always
suffices). An open tag whose name is in the store is captured with
`parse_element` (a `None` there is converted by `.ctx(...)`, whose
`Option` instance yields the fixed `Unknown` error and drops the context
string) and expanded; every other token is copied. -/
def cpGo (templates : Templates) :
    Nat → List HtmlElement → List HtmlElement → Nat → CResult (List HtmlElement × Nat)
  | _, [], output, n => CResult.ok (output, n)
  | 0, _ :: _, _, _ => CResult.error CompErr.fuelOut
  | fuel + 1, lm :: rest, output, n =>
    match lm with
    | HtmlElement.OpenTag name attrs ie =>
      match templatesGet templates name with
      | some tmp =>
        match parse_element (HtmlElement.OpenTag name attrs ie :: rest) with
        | ElemResult.ok base new_tail =>
          cpGo templates fuel new_tail (output ++ expand_template base tmp) (n + 1)
        | ElemResult.fail => CResult.error (CompErr.terr optionCtxError)
        | ElemResult.panic => CResult.error CompErr.panic
      | none => cpGo templates fuel rest (output ++ [HtmlElement.OpenTag name attrs ie]) n
    | _ => cpGo templates fuel rest (output ++ [lm]) n

/-- `compile.rs` `compilation_pass`. -/
def compilation_pass (source : List HtmlElement) (templates : Templates) :
    CResult (List HtmlElement × Nat) :=
  cpGo templates (source.length + 1) source [] 0

/-- The `for i in 1..=RECURSION_LIMIT` driver loop of `compile_source`,
indexed by the number of remaining iterations (entered with
`RECURSION_LIMIT`; `remaining = r + 1` corresponds to iteration
`i = RECURSION_LIMIT - r`, so the `i == RECURSION_LIMIT` check is `r = 0`).
After each pass: break on zero expansions; then the size guard; then the
pass-count guard. The `remaining = 0` case is the (unreachable) natural
loop exit, returning the working sequence. -/
def compileLoop (templates : Templates) :
    Nat → List HtmlElement → CResult (List HtmlElement)
  | 0, source => CResult.ok source
  | r + 1, source =>
    match compilation_pass source templates with
    | CResult.error e => CResult.error e
    | CResult.ok (new_source, num_expanded) =>
      if num_expanded = 0 then CResult.ok new_source
      else if LEXEME_MEMORY_LIMIT ≤ new_source.length then
        CResult.error (CompErr.terr (compile_error "reached memory limit expanding templates"))
      else if r = 0 then
        CResult.error (CompErr.terr (compile_error "reached recursion limit expanding templates"))
      else compileLoop templates r new_source

/-! ### parse.rs: the lexer

The lexer works on `List Char`. Each helper parser mirrors the Rust
function of the same name and returns the parsed value, the remaining
input, and the number of characters consumed. -/

/-- Character-sequence input. -/
abbrev Chars := List Char

/-- ASCII part of Rust `char::is_whitespace` (space, tab, newline,
vertical tab, form feed, carriage return). -/
def isWS (c : Char) : Bool :=
  c == ' ' || c == '\t' || c == '\n' || c == Char.ofNat 11 || c == Char.ofNat 12 || c == '\r'

/-- Rust `char::is_ascii_alphanumeric`. -/
def isAsciiAlnum (c : Char) : Bool :=
  ('a' ≤ c && c ≤ 'z') || ('A' ≤ c && c ≤ 'Z') || ('0' ≤ c && c ≤ '9')

/-- Characters allowed in names: ASCII alphanumerics and `:`, `_`, `-`,
`@` (complement of `parse.rs` `NAME_REGEX`). -/
def nameChar (c : Char) : Bool :=
  isAsciiAlnum c || c == ':' || c == '_' || c == '-' || c == '@'

/-- `parse.rs` `NAME_REGEX`: the stopping condition for name parsing. -/
def NAME_REGEX (c : Char) : Bool := !nameChar c

/-- `parse.rs` `WS_REGEX`: the stopping condition for whitespace
skipping. -/
def WS_REGEX (c : Char) : Bool := !isWS c

/-- Rust `u8::to_ascii_lowercase` on a character. -/
def asciiLower (c : Char) : Char :=
  if 'A' ≤ c && c ≤ 'Z' then Char.ofNat (c.toNat + 32) else c

/-- Rust `eq_ignore_ascii_case` on single characters. -/
def eqIgnoreCase (a b : Char) : Bool := asciiLower a == asciiLower b

/-- `parse.rs` `parse_until`: split at the first character satisfying the
condition (or at the end of input); returns the prefix, the rest, and the
length of the prefix. -/
def parse_until (i : Chars) (cond : Char → Bool) : Chars × Chars × Nat :=
  match i with
  | [] => ([], [], 0)
  | c :: cs =>
    if cond c then ([], c :: cs, 0)
    else
      let r := parse_until cs cond
      (c :: r.1, r.2.1, r.2.2 + 1)

/-- `parse.rs` `parse_str`: match a literal, ASCII-case-insensitively. -/
def parse_str (i : Chars) (m : Chars) : Option (Chars × Chars × Nat) :=
  if m.length ≤ i.length then
    let s := i.take m.length
    if (s.zip m).all (fun p => eqIgnoreCase p.1 p.2) then
      some (s, i.drop m.length, m.length)
    else none
  else none

/-- `parse.rs` `parse_char`: match one exact character. -/
def parse_char (i : Chars) (m : Char) : Option (Char × Chars × Nat) :=
  match i with
  | c :: cs => if c = m then some (c, cs, 1) else none
  | [] => none

/-- `parse.rs` `parse_delimited`: delimiter, contents up to the next
delimiter, delimiter. -/
def parse_delimited (i : Chars) (delim : Char) : Option (Chars × Chars × Nat) :=
  match parse_char i delim with
  | none => none
  | some (_, i1, o1) =>
    let r := parse_until i1 (fun c => c == delim)
    match parse_char r.2.1 delim with
    | none => none
    | some (_, i3, o3) => some (r.1, i3, o1 + r.2.2 + o3)

/-- `parse.rs` `parse_until_str`: scan prefixes `tail[0..i]` for
`i = 0, …, tail.len() - 1` until one ends with the literal; split just
before that occurrence. (Note the scan stops one short of the full
length, so a literal occurring flush at the end of the input is not
found.) -/
def parse_until_str (tail : Chars) (to_match : Chars) : Option (Chars × Chars × Nat) :=
  match (List.range tail.length).find? (fun i => to_match.isSuffixOf (tail.take i)) with
  | none => none
  | some i =>
    let e := i - to_match.length
    some (tail.take e, tail.drop e, e)

/-- `parse.rs` `index_to_rc`: character offset to 1-based row/column. -/
def index_to_rc (input : Chars) (index : Nat) : Nat × Nat :=
  (input.take index).foldl
    (fun rc c => if c = '\n' then (rc.1 + 1, 1) else (rc.1, rc.2 + 1))
    (1, 1)

/-- `parse.rs` `parse_text`: literal text up to the next `<`. -/
def parse_text (i : Chars) : Chars × Chars × Nat :=
  parse_until i (fun c => c == '<')

/-- `parse.rs` `parse_doctype`. -/
def parse_doctype (i : Chars) : Option (HtmlElement × Chars × Nat) :=
  match parse_str i "<!doctype".data with
  | none => none
  | some (_, i1, o1) =>
    let r2 := parse_until i1 WS_REGEX
    if r2.2.2 = 0 then none
    else
      match parse_str r2.2.1 "html".data with
      | none => none
      | some (_, i3, o3) =>
        let r4 := parse_until i3 WS_REGEX
        match parse_str r4.2.1 ">".data with
        | none => none
        | some (_, i5, o5) =>
          some (HtmlElement.DocType, i5, o1 + r2.2.2 + o3 + r4.2.2 + o5)

/-- `parse.rs` `parse_comment`. -/
def parse_comment (tail : Chars) : Option (HtmlElement × Chars × Nat) :=
  match parse_str tail "<!--".data with
  | none => none
  | some (_, t1, o1) =>
    match parse_until_str t1 "-->".data with
    | none => none
    | some (comment, t2, o2) =>
      match parse_str t2 "-->".data with
      | none => none
      | some (_, t3, o3) =>
        some (HtmlElement.Comment (String.mk comment), t3, o1 + o2 + o3)

/-- `parse.rs` `parse_attribute`: at least one whitespace, a nonempty
key, and an optional `= value` where the value is double-quoted,
single-quoted, or unquoted (ending at the next `NAME_REGEX` character); a
bare key gets the empty-string value. -/
def parse_attribute (i : Chars) : Option ((String × String) × Chars × Nat) :=
  let r1 := parse_until i WS_REGEX
  if r1.2.2 = 0 then none
  else
    let r2 := parse_until r1.2.1 NAME_REGEX
    if r2.2.2 = 0 then none
    else
      let get_value : Option (Chars × Chars × Nat) :=
        let s1 := parse_until r2.2.1 WS_REGEX
        match parse_str s1.2.1 "=".data with
        | none => none
        | some (_, s2, p2) =>
          let s3 := parse_until s2 WS_REGEX
          let s4 :=
            match parse_delimited s3.2.1 '"' with
            | some r => r
            | none =>
              match parse_delimited s3.2.1 '\'' with
              | some r => r
              | none => parse_until s3.2.1 NAME_REGEX
          some (s4.1, s4.2.1, s1.2.2 + p2 + s3.2.2 + s4.2.2)
      match get_value with
      | some (v, i3, o3) =>
        some ((String.mk r2.1, String.mk v), i3, r1.2.2 + r2.2.2 + o3)
      | none =>
        some ((String.mk r2.1, ""), r2.2.1, r1.2.2 + r2.2.2)

/-- Fuel for the attribute-collection loop: one more than the remaining
input length (each successful attribute consumes at least one character,
so this always suffices). -/
def attrsFuel (i : Chars) : Nat := i.length + 1

/-- The attribute-collection loop of `parse_open_tag` (`while let Some`),
with fuel. -/
def attrsLoop : Nat → Chars → Attributes → Chars × Attributes × Nat
  | 0, i, acc => (i, acc, 0)
  | fuel + 1, i, acc =>
    match parse_attribute i with
    | none => (i, acc, 0)
    | some (kv, i1, o1) =>
      let r := attrsLoop fuel i1 (attrInsert acc kv.1 kv.2)
      (r.1, r.2.1, o1 + r.2.2)

/-- `parse.rs` `VOID_ELEMENTS`. -/
def VOID_ELEMENTS : List String :=
  ["area", "base", "br", "col", "command", "embed", "hr", "img", "input",
   "keygen", "link", "meta", "param", "source", "track", "wbr"]

/-- `parse.rs` `parse_open_tag`: `<`, a name, attributes, optional
whitespace, an optional `/` (or a void-element name) making the tag
empty, and `>`. -/
def parse_open_tag (i : Chars) : Option (HtmlElement × Chars × Nat) :=
  match parse_str i "<".data with
  | none => none
  | some (_, i1, o1) =>
    let r2 := parse_until i1 NAME_REGEX
    let a := attrsLoop (attrsFuel r2.2.1) r2.2.1 []
    let r4 := parse_until a.1 WS_REGEX
    let se :=
      match parse_str r4.2.1 "/".data with
      | some (_, i5, o5) => (true, i5, o5)
      | none => (false, r4.2.1, 0)
    let name := String.mk r2.1
    let ie := se.1 || VOID_ELEMENTS.contains name
    match parse_char se.2.1 '>' with
    | none => none
    | some (_, i6, o6) =>
      some (HtmlElement.OpenTag name a.2.1 ie, i6,
        o1 + r2.2.2 + a.2.2 + r4.2.2 + se.2.2 + o6)

/-- `parse.rs` `parse_close_tag`: `</`, a nonempty name, optional
whitespace, `>`. -/
def parse_close_tag (i : Chars) : Option (HtmlElement × Chars × Nat) :=
  match parse_str i "</".data with
  | none => none
  | some (_, i1, o1) =>
    let r2 := parse_until i1 NAME_REGEX
    if r2.2.2 = 0 then none
    else
      let r3 := parse_until r2.2.1 WS_REGEX
      match parse_str r3.2.1 ">".data with
      | none => none
      | some (_, i4, o4) =>
        some (HtmlElement.CloseTag (String.mk r2.1), i4, o1 + r2.2.2 + r3.2.2 + o4)

/-- The raw-contents loop of `parse_raw_text` (`while !i.is_empty()`),
with fuel: accumulate text; break when a close tag with the opening name
follows; when the text grabbed was empty, consume the `<` into the
contents. Returns the contents, the rest of the input and the consumed
count. -/
def rawLoop (open_name : String) : Nat → Chars → Chars → Nat → Chars × Chars × Nat
  | 0, i, acc, o => (acc, i, o)
  | fuel + 1, i, acc, o =>
    match i with
    | [] => (acc, i, o)
    | _ :: _ =>
      let t := parse_text i
      let acc1 := acc ++ t.1
      let o1 := o + t.2.2
      let i1 := t.2.1
      if "</".data.isPrefixOf i1 &&
          (match parse_close_tag i1 with
           | some (HtmlElement.CloseTag name, _, _) => name == open_name
           | _ => false) then
        (acc1, i1, o1)
      else if t.1.isEmpty then
        rawLoop open_name fuel (i1.drop 1) (acc1 ++ ['<']) (o1 + 1)
      else
        rawLoop open_name fuel i1 acc1 o1

/-- `parse.rs` `parse_raw_text`: an open tag, verbatim contents up to the
first matching close tag of the same name (empty for a self-closing
tag), and that close tag. -/
def parse_raw_text (i : Chars) : Option ((String × Attributes × String) × Chars × Nat) :=
  match parse_open_tag i with
  | some (HtmlElement.OpenTag name attrs ie, i1, o1) =>
    if ie then some ((name, attrs, ""), i1, o1)
    else
      let r := rawLoop name (2 * i1.length + 2) i1 [] 0
      match parse_close_tag r.2.1 with
      | some (HtmlElement.CloseTag close_name, i3, o3) =>
        if name = close_name then
          some ((name, attrs, String.mk r.1), i3, o1 + r.2.2 + o3)
        else none
      | _ => none
  | _ => none

/-- `parse.rs` `parse_style`. -/
def parse_style (i : Chars) : Option (HtmlElement × Chars × Nat) :=
  match parse_raw_text i with
  | none => none
  | some ((name, attributes, contents), i1, o) =>
    if name = "style" then some (HtmlElement.Style attributes contents, i1, o)
    else none

/-- `parse.rs` `parse_script`. -/
def parse_script (i : Chars) : Option (HtmlElement × Chars × Nat) :=
  match parse_raw_text i with
  | none => none
  | some ((name, attributes, contents), i1, o) =>
    if name = "script" then some (HtmlElement.Script attributes contents, i1, o)
    else none

/-- `parse.rs` `parse_directive`: a raw-text tag whose name starts with
`@`; the marker is stripped from the stored name. -/
def parse_directive (i : Chars) : Option (HtmlElement × Chars × Nat) :=
  match parse_raw_text i with
  | none => none
  | some ((name, attributes, contents), i1, o) =>
    match name.data with
    | '@' :: tl => some (HtmlElement.Directive (String.mk tl) attributes contents, i1, o)
    | _ => none

/-- One step of the `parse_html` dispatch chain: `none` is an illegal
sequence; `some (none, …)` is a whitespace-only text span (skipped
without emitting a token); `some (some lm, …)` is a parsed token. -/
def nextLexeme (i : Chars) : Option (Option HtmlElement × Chars × Nat) :=
  if "<!--".data.isPrefixOf i then
    (parse_comment i).map (fun r => (some r.1, r.2.1, r.2.2))
  else if "<!".data.isPrefixOf i then
    (parse_doctype i).map (fun r => (some r.1, r.2.1, r.2.2))
  else if "<style".data.isPrefixOf i then
    (parse_style i).map (fun r => (some r.1, r.2.1, r.2.2))
  else if "<script".data.isPrefixOf i then
    (parse_script i).map (fun r => (some r.1, r.2.1, r.2.2))
  else if "</".data.isPrefixOf i then
    (parse_close_tag i).map (fun r => (some r.1, r.2.1, r.2.2))
  else if "<@".data.isPrefixOf i then
    (parse_directive i).map (fun r => (some r.1, r.2.1, r.2.2))
  else if "<".data.isPrefixOf i then
    (parse_open_tag i).map (fun r => (some r.1, r.2.1, r.2.2))
  else
    let t := parse_text i
    if t.1.all isWS then some (none, t.2.1, t.2.2)
    else some (some (HtmlElement.Text (String.mk t.1)), t.2.1, t.2.2)

/-- Result type of the lexer. -/
inductive LexResult where
  | ok (toks : List HtmlElement)
  | error (e : TraceError)
deriving DecidableEq, Repr

/-- `parse.rs` `throw_err`: build a lexer error at an offset and convert
it to a trace error. -/
def mkLexError (input : Chars) (kind : ParseErrorKind) (offset : Nat) : TraceError :=
  let rc := index_to_rc input offset
  toTraceError { kind := kind, char_index := offset, row := rc.1, column := rc.2 }

/-- The main loop of `parse_html`, with fuel (each iteration consumes at
least one character, so `input.length + 1` fuel always suffices; the
fuel-exhaustion branch is unreachable and yields a distinguished error).
Per iteration: dispatch to a parser (failure is an `Illegal` error at the
current offset); check the token-count ceiling before storing the token;
validate tag balance with the name stack; at the end of input the stack
must be empty. -/
def goLex (input : Chars) :
    Nat → Chars → Nat → List HtmlElement → List String → LexResult
  | _, [], offset, output, stack =>
    if stack.isEmpty then LexResult.ok output
    else LexResult.error (mkLexError input ParseErrorKind.unbalancedTags offset)
  | 0, _ :: _, _, _, _ =>
    LexResult.error { kind := ErrorKind.unknown, reason := "fuel exhausted", backtrace := [] }
  | fuel + 1, c :: cs, offset, output, stack =>
    match nextLexeme (c :: cs) with
    | none => LexResult.error (mkLexError input ParseErrorKind.illegal offset)
    | some (none, i1, o1) => goLex input fuel i1 (offset + o1) output stack
    | some (some lm, i1, o1) =>
      if LEXEME_MEMORY_LIMIT ≤ output.length then
        LexResult.error (mkLexError input ParseErrorKind.memoryLimit offset)
      else
        match lm with
        | HtmlElement.OpenTag name attrs false =>
          goLex input fuel i1 (offset + o1)
            (output ++ [HtmlElement.OpenTag name attrs false]) (name :: stack)
        | HtmlElement.CloseTag name =>
          match stack with
          | [] => LexResult.error (mkLexError input ParseErrorKind.unbalancedTags offset)
          | top :: stack1 =>
            if top = name then
              goLex input fuel i1 (offset + o1)
                (output ++ [HtmlElement.CloseTag name]) stack1
            else LexResult.error (mkLexError input ParseErrorKind.unbalancedTags offset)
        | _ => goLex input fuel i1 (offset + o1) (output ++ [lm]) stack

/-- `parse.rs` `parse_html`: the lexer. -/
def parse_html (input : Chars) : LexResult :=
  goLex input (input.length + 1) input 0 [] []

/-! ### parse.rs: the serializer -/

/-- `parse.rs` `serialize_attributes`: each pair renders as
`" key"` for an empty value and `" key=\"value\""` otherwise. -/
def serialize_attributes (attr : Attributes) : String :=
  String.join (attr.map (fun kv =>
    if kv.2 = "" then " " ++ kv.1 else " " ++ kv.1 ++ "=\"" ++ kv.2 ++ "\""))

/-- `parse.rs` `HtmlElement::serialize`. The Directive Registry
(`directives.rs` `expand_directive`, an external, I/O-performing
collaborator) is passed in as the function `reg`. Note the `Comment` case
renders the fixed string regardless of the captured text. -/
def serializeTok (reg : String → Attributes → String → String) : HtmlElement → String
  | HtmlElement.DocType => "<!DOCTYPE html>"
  | HtmlElement.Comment _ => "<!---->"
  | HtmlElement.OpenTag name attributes false =>
    "<" ++ name ++ serialize_attributes attributes ++ ">"
  | HtmlElement.OpenTag name attributes true =>
    "<" ++ name ++ serialize_attributes attributes ++ "/>"
  | HtmlElement.CloseTag name => "</" ++ name ++ ">"
  | HtmlElement.Style attributes contents =>
    "<style" ++ serialize_attributes attributes ++ ">\n" ++ contents ++ "\n</style>"
  | HtmlElement.Script attributes contents =>
    "<script" ++ serialize_attributes attributes ++ ">\n" ++ contents ++ "\n</script>"
  | HtmlElement.Text t => t
  | HtmlElement.Directive name attributes contents => reg name attributes contents

/-- `compile.rs` `serialize`: concatenation of the tokens' renderings. -/
def serialize (reg : String → Attributes → String → String)
    (output : List HtmlElement) : String :=
  String.join (output.map (serializeTok reg))

/-- `compile.rs` `compile_source`: lex the source once, then run the
driver loop starting from `RECURSION_LIMIT` remaining iterations. -/
def compile_source (input : Chars) (templates : Templates) :
    CResult (List HtmlElement) :=
  match parse_html input with
  | LexResult.error e => CResult.error (CompErr.terr e)
  | LexResult.ok source => compileLoop templates RECURSION_LIMIT source

/-! ### Specification-side and analysis definitions

These definitions render sentences of the specification (per-token
expansion semantics, well-formedness of token sequences, the class of
well-formed inputs) so that the code-derived definitions above can be
compared against them. -/

/-- Per-token semantics of the expander, following the specification's
wording: a content-slot `Directive` (reserved name "children") emits the
invocation's entire `child_span` verbatim; an `OpenTag` is rebuilt; every
other token is copied through unchanged. -/
def expandTokSpec (base : Element) : HtmlElement → List HtmlElement
  | HtmlElement.OpenTag name attributes ie =>
    [HtmlElement.OpenTag name (expand_attrs base.attributes attributes) ie]
  | HtmlElement.Directive name attributes contents =>
    if name = "children" then base.child_span
    else [HtmlElement.Directive name attributes contents]
  | t => [t]

/-- Per-pair semantics of the attribute rebuilding, as the code actually
behaves (amendment of the specification's `key ↦ invocation_value`): a
variable pair contributes the binding `variable_name ↦ invocation_value`
when the invocation carries the variable name and nothing otherwise; a
literal pair contributes itself. -/
def attrSpecAmended (base : Attributes) (kv : String × String) :
    List (String × String) :=
  match stripAtMarker kv.2 with
  | some at_key =>
    match attrGet base at_key with
    | some at_value => [(at_key, at_value)]
    | none => []
  | none => [(kv.1, kv.2)]

/-- Pairwise distinctness of the keys of an association list. -/
def keysNodup : List (String × String) → Bool
  | [] => true
  | kv :: rest => !(rest.any (fun p => p.1 == kv.1)) && keysNodup rest

/-- Contribution of one token to the depth counter of `parse_element`:
`+1` for a non-empty open tag, `-1` for a close tag, `0` otherwise. -/
def tokDepth : HtmlElement → Int
  | HtmlElement.OpenTag _ _ ie => if ie then 0 else 1
  | HtmlElement.CloseTag _ => -1
  | _ => 0

/-- Net depth contribution of a token sequence. -/
def netDepth (l : List HtmlElement) : Int := (l.map tokDepth).sum

/-- Whether a token sequence contains no open tag whose name is a key of
the store (no blueprint invocations). -/
def noInvocationsB (ts : List HtmlElement) (templates : Templates) : Bool :=
  ts.all (fun t =>
    match t with
    | HtmlElement.OpenTag n _ _ => (templatesGet templates n).isNone
    | _ => true)

/-- The stack-based tag-balance checker (the validation performed by the
lexer, as a standalone function): returns the final open-tag stack, or
`none` on a mismatched or unmatched close tag. -/
def balRun : List HtmlElement → List String → Option (List String)
  | [], stk => some stk
  | HtmlElement.OpenTag n _ false :: l, stk => balRun l (n :: stk)
  | HtmlElement.CloseTag n :: l, stk =>
    match stk with
    | [] => none
    | top :: stk1 => if top = n then balRun l stk1 else none
  | _ :: l, stk => balRun l stk

/-- Tokens that stand alone in a well-formed sequence (everything except
a non-empty open tag and a close tag). -/
def otherTok : HtmlElement → Bool
  | HtmlElement.OpenTag _ _ ie => ie
  | HtmlElement.CloseTag _ => false
  | _ => true

/-- Well-formedness of a token sequence, following the specification's
invariant: every `OpenTag` with `is_empty = false` is matched by exactly
one same-named `CloseTag` in properly nested order, and no `CloseTag`
appears unmatched. -/
inductive WF : List HtmlElement → Prop
  | nil : WF []
  | other (t : HtmlElement) (rest : List HtmlElement)
      (h : otherTok t = true) (hr : WF rest) : WF (t :: rest)
  | pair (n : String) (a : Attributes) (inner rest : List HtmlElement)
      (hi : WF inner) (hr : WF rest) :
      WF (HtmlElement.OpenTag n a false :: inner ++ HtmlElement.CloseTag n :: rest)

/-- Whether a lexer result is the terminal tag-balance failure. -/
def isTagBalanceFailure : LexResult → Bool
  | LexResult.error { kind := ErrorKind.parsing, reason := r, backtrace := _ } =>
    r == "Unbalanced open and close tags"
  | _ => false

/-! ### Specification-side: the class of well-formed inputs (for the
round-trip property)

The specification's "well-formed input with N matched tag pairs" is
rendered as the serialization of a well-formed token sequence whose
tokens satisfy the canonicity conditions below (names and attribute keys
from the lexer's name alphabet, names not colliding with the
`style`/`script`/directive dispatch, non-void names for paired tags,
nonempty quote-free attribute values, text without `<` and not
whitespace-only, no two adjacent text tokens). On this class the lexer
succeeds and re-serialization is the identity. -/

/-- Canonicity of a tag name. -/
def nameOK (n : String) : Bool :=
  !n.data.isEmpty && n.data.all nameChar &&
  !(n.data.head? == some '@') &&
  !("style".data.isPrefixOf n.data) && !("script".data.isPrefixOf n.data)

/-- Canonicity of an attribute pair: a nonempty name-alphabet key and a
nonempty value without a double quote. -/
def attrOK (kv : String × String) : Bool :=
  !kv.1.data.isEmpty && kv.1.data.all nameChar &&
  !(kv.2 == "") && kv.2.data.all (fun c => !(c == '"'))

/-- Canonicity of a single token. -/
def tokOK : HtmlElement → Bool
  | HtmlElement.DocType => true
  | HtmlElement.Text t =>
    !t.data.isEmpty && t.data.all (fun c => !(c == '<')) && !(t.data.all isWS)
  | HtmlElement.OpenTag n a ie =>
    nameOK n && a.all attrOK && keysNodup a && (ie || !(VOID_ELEMENTS.contains n))
  | HtmlElement.CloseTag n => nameOK n
  | _ => false

/-- No two adjacent `Text` tokens (adjacent text spans would merge when
re-lexed). -/
def adjOK : List HtmlElement → Bool
  | HtmlElement.Text _ :: HtmlElement.Text _ :: _ => false
  | _ :: rest => adjOK rest
  | [] => true

/-- Character-level rendering of one attribute
(mirrors `serialize_attributes`). -/
def serAttrC (kv : String × String) : Chars :=
  if kv.2 = "" then ' ' :: kv.1.data
  else ' ' :: kv.1.data ++ '=' :: '"' :: kv.2.data ++ ['"']

/-- Character-level rendering of an attribute map. -/
def serAttrsC (a : Attributes) : Chars := a.flatMap serAttrC

/-- Character-level rendering of one token (mirrors
`HtmlElement::serialize`). -/
def serTokC (reg : String → Attributes → String → String) : HtmlElement → Chars
  | HtmlElement.DocType => "<!DOCTYPE html>".data
  | HtmlElement.Comment _ => "<!---->".data
  | HtmlElement.OpenTag n a false => '<' :: (n.data ++ serAttrsC a ++ ['>'])
  | HtmlElement.OpenTag n a true => '<' :: (n.data ++ serAttrsC a ++ ['/', '>'])
  | HtmlElement.CloseTag n => '<' :: '/' :: (n.data ++ ['>'])
  | HtmlElement.Style a c =>
    "<style".data ++ serAttrsC a ++ '>' :: '\n' :: (c.data ++ "\n</style>".data)
  | HtmlElement.Script a c =>
    "<script".data ++ serAttrsC a ++ '>' :: '\n' :: (c.data ++ "\n</script>".data)
  | HtmlElement.Text t => t.data
  | HtmlElement.Directive n a c => (reg n a c).data

/-- Character-level rendering of a token sequence. -/
def serAllC (reg : String → Attributes → String → String)
    (ts : List HtmlElement) : Chars :=
  ts.flatMap (serTokC reg)

/-- Whether a token is a `Text` token. -/
def isText : HtmlElement → Bool
  | HtmlElement.Text _ => true
  | _ => false

/-! ### Helper lemmas: folds, attribute maps -/

theorem foldl_append_bind {α β : Type} (f : α → List β) :
    ∀ (l : List α) (acc : List β),
      l.foldl (fun out a => out ++ f a) acc = acc ++ l.flatMap f := by
  intro l
  induction l with
  | nil => intro acc; simp
  | cons a l ih => intro acc; simp [List.foldl, ih]

theorem expandStep_eq (base : Element) (output : List HtmlElement) (el : HtmlElement) :
    expandStep base output el = output ++ expandTokSpec base el := by
  cases el <;> simp [expandStep, expandTokSpec]
  case Directive name attributes contents =>
    by_cases h : name = "children" <;> simp [h]

theorem expand_template_bind (base template : Element) :
    expand_template base template = template.child_span.flatMap (expandTokSpec base) := by
  unfold expand_template
  have h : ∀ (l : List HtmlElement) (acc : List HtmlElement),
      l.foldl (expandStep base) acc = acc ++ l.flatMap (expandTokSpec base) := by
    intro l
    induction l with
    | nil => intro acc; simp
    | cons a l ih => intro acc; simp [List.foldl, expandStep_eq, ih]
  simpa using h template.child_span []

theorem attrInsert_fresh (m : Attributes) (k v : String)
    (h : m.any (fun p => p.1 == k) = false) :
    attrInsert m k v = m ++ [(k, v)] := by
  simp [attrInsert, h]

theorem keysNodup_mid : ∀ (xs : List (String × String)) (k v : String)
    (ys : List (String × String)),
    keysNodup (xs ++ (k, v) :: ys) = true →
    xs.any (fun p => p.1 == k) = false := by
  intro xs
  induction xs with
  | nil => intro k v ys _; simp
  | cons x xs ih =>
    intro k v ys h
    simp only [List.cons_append, keysNodup, Bool.and_eq_true, Bool.not_eq_true'] at h
    obtain ⟨h1, h2⟩ := h
    have hx : (x.1 == k) = false := by
      by_contra hc
      have hk : x.1 = k := by
        cases hxk : (x.1 == k) with
        | false => exact absurd hxk hc
        | true => exact eq_of_beq hxk
      have : ((xs ++ (k, v) :: ys).any (fun p => p.1 == x.1)) = true := by
        refine List.any_eq_true.mpr ?_
        exact ⟨(k, v), by simp, by simp [hk]⟩
      simp [this] at h1
    simp [List.any_cons, hx, ih k v ys h2]

theorem expandAttrStep_spec (base acc : Attributes) (kv : String × String)
    (hfresh : ∀ p ∈ attrSpecAmended base kv, acc.any (fun q => q.1 == p.1) = false) :
    expandAttrStep base acc kv = acc ++ attrSpecAmended base kv := by
  unfold expandAttrStep attrSpecAmended
  cases hs : stripAtMarker kv.2 with
  | none =>
    have := hfresh (kv.1, kv.2) (by simp [attrSpecAmended, hs])
    simp [attrInsert_fresh _ _ _ this]
  | some at_key =>
    cases hg : attrGet base at_key with
    | none => simp [hg]
    | some w =>
      have := hfresh (at_key, w) (by simp [attrSpecAmended, hs, hg])
      simp [hg, attrInsert_fresh _ _ _ this]

theorem expand_attrs_bind_aux (base : Attributes) :
    ∀ (A : Attributes) (acc : Attributes),
      keysNodup (acc ++ A.flatMap (attrSpecAmended base)) = true →
      A.foldl (expandAttrStep base) acc = acc ++ A.flatMap (attrSpecAmended base) := by
  intro A
  induction A with
  | nil => intro acc _; simp
  | cons kv A ih =>
    intro acc h
    have hbind : (kv :: A).flatMap (attrSpecAmended base)
        = attrSpecAmended base kv ++ A.flatMap (attrSpecAmended base) := by
      simp
    rw [hbind] at h
    have hfresh : ∀ p ∈ attrSpecAmended base kv,
        acc.any (fun q => q.1 == p.1) = false := by
      intro p hp
      rcases List.append_of_mem hp with ⟨s, t, hst⟩
      have hre : acc ++ (s ++ p :: t) ++ A.flatMap (attrSpecAmended base)
          = (acc ++ s) ++ (p.1, p.2) :: (t ++ A.flatMap (attrSpecAmended base)) := by
        simp
      rw [hst] at h
      rw [← List.append_assoc] at h
      rw [hre] at h
      have := keysNodup_mid (acc ++ s) p.1 p.2 _ h
      have hsplit : (acc ++ s).any (fun q => q.1 == p.1)
          = (acc.any (fun q => q.1 == p.1) || s.any (fun q => q.1 == p.1)) := by
        simp [List.any_append]
      rw [hsplit] at this
      exact (Bool.or_eq_false_iff.mp this).1
    have hstep := expandAttrStep_spec base acc kv hfresh
    simp only [List.foldl, hstep]
    have hgoal := ih (acc ++ attrSpecAmended base kv)
      (by rw [List.append_assoc]; exact h)
    rw [hgoal, hbind, List.append_assoc]

theorem expand_attrs_bind (base A : Attributes)
    (h : keysNodup (A.flatMap (attrSpecAmended base)) = true) :
    expand_attrs base A = A.flatMap (attrSpecAmended base) := by
  unfold expand_attrs
  have := expand_attrs_bind_aux base A [] (by simpa using h)
  simpa using this

/-! ### C6: expander slot substitution and pass-through -/

/-- C6: during expansion of a definition's `child_span`, a content-slot
`Directive` token (reserved name "children") causes the invocation's
entire `child_span` to be emitted verbatim, in original order,
unsubstituted; every token kind other than `OpenTag` and the content-slot
`Directive` (`Text`, `Comment`, `CloseTag`, other `Directive`, `Script`,
`Style`, `DocType`) is copied through unchanged. The first conjunct shows
the expander is exactly the per-token map `expandTokSpec` applied at
every position of the definition's span; the remaining conjuncts unfold
that map at each token kind. -/
theorem c6_content_slot_and_passthrough (base template : Element) :
    expand_template base template
      = template.child_span.flatMap (expandTokSpec base) ∧
    (∀ a c, expandTokSpec base (HtmlElement.Directive "children" a c)
      = base.child_span) ∧
    (∀ s, expandTokSpec base (HtmlElement.Text s) = [HtmlElement.Text s]) ∧
    (∀ s, expandTokSpec base (HtmlElement.Comment s) = [HtmlElement.Comment s]) ∧
    (∀ n, expandTokSpec base (HtmlElement.CloseTag n) = [HtmlElement.CloseTag n]) ∧
    (∀ n a c, n ≠ "children" →
      expandTokSpec base (HtmlElement.Directive n a c) = [HtmlElement.Directive n a c]) ∧
    (∀ a c, expandTokSpec base (HtmlElement.Script a c) = [HtmlElement.Script a c]) ∧
    (∀ a c, expandTokSpec base (HtmlElement.Style a c) = [HtmlElement.Style a c]) ∧
    expandTokSpec base HtmlElement.DocType = [HtmlElement.DocType] := by
  refine ⟨expand_template_bind base template, by simp [expandTokSpec], ?_, ?_, ?_, ?_, ?_, ?_, ?_⟩
  · intro s; rfl
  · intro s; rfl
  · intro n; rfl
  · intro n a c h; simp [expandTokSpec, h]
  · intro a c; rfl
  · intro a c; rfl
  · rfl

/-- C6 witness: the theorem applied at a concrete invocation and
definition, discharging the `n ≠ "children"` hypothesis at the directive
name "other". -/
theorem c6_witness :
    expand_template ⟨[], [HtmlElement.Text "B"]⟩
        ⟨[], [HtmlElement.Text "t", HtmlElement.Directive "children" [] "",
              HtmlElement.Directive "other" [] ""]⟩
      = [HtmlElement.Text "t", HtmlElement.Text "B", HtmlElement.Directive "other" [] ""] ∧
    expandTokSpec ⟨[], [HtmlElement.Text "B"]⟩ (HtmlElement.Directive "other" [] "")
      = [HtmlElement.Directive "other" [] ""] := by
  have h := c6_content_slot_and_passthrough ⟨[], [HtmlElement.Text "B"]⟩
    ⟨[], [HtmlElement.Text "t", HtmlElement.Directive "children" [] "",
          HtmlElement.Directive "other" [] ""]⟩
  refine ⟨?_, h.2.2.2.2.2.1 "other" [] "" (by decide)⟩
  rw [h.1]
  decide

/-! ### C1: variable binding in attribute rebuilding (amended) -/

/-- C1 counterexample: the claim states that for a definition attribute
pair `(key, "@var")` with the variable present in the invocation, the
emitted open tag binds the definition's original `key` to the
invocation's value. With definition pair `("class", "@title")` and
invocation attribute `("title", "Hi")` the emitted tag instead carries no
"class" attribute at all: the binding is keyed by the variable name
"title". -/
theorem c1_counterexample :
    expand_template ⟨[("title", "Hi")], []⟩
        ⟨[], [HtmlElement.OpenTag "p" [("class", "@title")] true]⟩
      = [HtmlElement.OpenTag "p" [("title", "Hi")] true] ∧
    attrGet (expand_attrs [("title", "Hi")] [("class", "@title")]) "class" = none ∧
    attrGet (expand_attrs [("title", "Hi")] [("class", "@title")]) "title" = some "Hi" := by
  decide

/-- C1 (amended): for every `OpenTag` in a definition's `child_span` and
every attribute pair `(key, value)` with `value` starting with the
variable marker `@`, expansion strips the marker to obtain a variable
name; if the invocation's attribute map contains that variable name, the
emitted `OpenTag` binds the *variable name* (not the definition's
original key) to the invocation's value, and if it does not, the pair is
omitted entirely (no empty placeholder); literal pairs are copied
verbatim. Stated via the per-pair map `attrSpecAmended`, under
distinctness of the produced keys (Rust's hash-map iteration order is
immaterial exactly then). -/
theorem c1_variable_binding_amended (binv : Element) (tattrs : Attributes)
    (n : String) (A : Attributes) ( is_empty : Bool)
    (h : keysNodup (A.flatMap (attrSpecAmended binv.attributes)) = true) :
    expand_template binv ⟨tattrs, [HtmlElement.OpenTag n A is_empty]⟩
      = [HtmlElement.OpenTag n (A.flatMap (attrSpecAmended binv.attributes)) is_empty] := by
  rw [expand_template_bind]
  simp [expandTokSpec, expand_attrs_bind binv.attributes A h]

/-- C1 witness: the amended theorem at a concrete definition tag with a
bound variable, an absent variable, and a literal attribute. -/
theorem c1_witness :
    expand_template ⟨[("title", "Hi")], []⟩
        ⟨[], [HtmlElement.OpenTag "p"
                [("class", "@title"), ("id", "@missing"), ("lang", "en")] false]⟩
      = [HtmlElement.OpenTag "p" [("title", "Hi"), ("lang", "en")] false] := by
  have h := c1_variable_binding_amended ⟨[("title", "Hi")], []⟩ [] "p"
    [("class", "@title"), ("id", "@missing"), ("lang", "en")] false (by decide)
  rw [h]
  decide

/-! ### C2: span extraction on slices that run out of tokens -/

theorem netDepth_nil : netDepth [] = 0 := rfl

theorem netDepth_cons (t : HtmlElement) (l : List HtmlElement) :
    netDepth (t :: l) = tokDepth t + netDepth l := by
  simp [netDepth]

theorem peLoop_exhausts :
    ∀ (l : List HtmlElement) (d : Int) (e : Nat),
      1 ≤ d →
      (∀ p t q, l = p ++ HtmlElement.CloseTag t :: q → 2 ≤ d + netDepth p) →
      peLoop l d e = PeLoopResult.exhausted (e + l.length) := by
  intro l
  induction l with
  | nil => intro d e _ _; simp [peLoop]
  | cons lm rest ih =>
    intro d e hd hcl
    cases lm with
    | OpenTag n a ie =>
      have hrec := ih (if ie then d else d + 1) (e + 1)
        (by cases ie <;> simp <;> omega)
        (by
          intro p t q hp
          have := hcl (HtmlElement.OpenTag n a ie :: p) t q (by rw [hp]; rfl)
          rw [netDepth_cons] at this
          cases ie <;> simp [tokDepth] at this ⊢ <;> omega)
      simp only [peLoop, hrec]
      congr 1
      simp [List.length_cons]
      omega
    | CloseTag t0 =>
      have h2 : 2 ≤ d := by
        have := hcl [] t0 rest (by simp)
        rw [netDepth_nil] at this
        omega
      have hne : ¬(d - 1 = 0) := by omega
      have hrec := ih (d - 1) (e + 1) (by omega)
        (by
          intro p t q hp
          have := hcl (HtmlElement.CloseTag t0 :: p) t q (by rw [hp]; rfl)
          rw [netDepth_cons] at this
          simp [tokDepth] at this
          omega)
      simp only [peLoop, if_neg hne, hrec]
      congr 1
      simp [List.length_cons]
      omega
    | DocType =>
      have hne : ¬(d = 0) := by omega
      have hrec := ih d (e + 1) hd
        (by
          intro p t q hp
          have := hcl (HtmlElement.DocType :: p) t q (by rw [hp]; rfl)
          rw [netDepth_cons] at this
          simp [tokDepth] at this
          omega)
      simp only [peLoop, if_neg hne, hrec]
      congr 1
      simp [List.length_cons]
      omega
    | Comment s =>
      have hne : ¬(d = 0) := by omega
      have hrec := ih d (e + 1) hd
        (by
          intro p t q hp
          have := hcl (HtmlElement.Comment s :: p) t q (by rw [hp]; rfl)
          rw [netDepth_cons] at this
          simp [tokDepth] at this
          omega)
      simp only [peLoop, if_neg hne, hrec]
      congr 1
      simp [List.length_cons]
      omega
    | Text s =>
      have hne : ¬(d = 0) := by omega
      have hrec := ih d (e + 1) hd
        (by
          intro p t q hp
          have := hcl (HtmlElement.Text s :: p) t q (by rw [hp]; rfl)
          rw [netDepth_cons] at this
          simp [tokDepth] at this
          omega)
      simp only [peLoop, if_neg hne, hrec]
      congr 1
      simp [List.length_cons]
      omega
    | Script a c =>
      have hne : ¬(d = 0) := by omega
      have hrec := ih d (e + 1) hd
        (by
          intro p t q hp
          have := hcl (HtmlElement.Script a c :: p) t q (by rw [hp]; rfl)
          rw [netDepth_cons] at this
          simp [tokDepth] at this
          omega)
      simp only [peLoop, if_neg hne, hrec]
      congr 1
      simp [List.length_cons]
      omega
    | Style a c =>
      have hne : ¬(d = 0) := by omega
      have hrec := ih d (e + 1) hd
        (by
          intro p t q hp
          have := hcl (HtmlElement.Style a c :: p) t q (by rw [hp]; rfl)
          rw [netDepth_cons] at this
          simp [tokDepth] at this
          omega)
      simp only [peLoop, if_neg hne, hrec]
      congr 1
      simp [List.length_cons]
      omega
    | Directive n a c =>
      have hne : ¬(d = 0) := by omega
      have hrec := ih d (e + 1) hd
        (by
          intro p t q hp
          have := hcl (HtmlElement.Directive n a c :: p) t q (by rw [hp]; rfl)
          rw [netDepth_cons] at this
          simp [tokDepth] at this
          omega)
      simp only [peLoop, if_neg hne, hrec]
      congr 1
      simp [List.length_cons]
      omega

/-- C2 counterexample: the claim states that a slice whose first token is
a non-empty open tag but which runs out of tokens before the nesting
counter returns to zero fails the extraction gracefully, propagated as a
contextual error, and does not crash. On the concrete slice
`[OpenTag "div" (non-empty)]` the extraction instead panics (the
remainder slice index `tail[end..]` with `end = tail.len() + 1` is out of
bounds), and a compilation pass over that slice with "div" in the store
propagates the panic. -/
theorem c2_counterexample :
    parse_element [HtmlElement.OpenTag "div" [] false] = ElemResult.panic ∧
    parse_element [HtmlElement.OpenTag "div" [] false] ≠ ElemResult.fail ∧
    compilation_pass [HtmlElement.OpenTag "div" [] false] [("div", ⟨[], []⟩)]
      = CResult.error CompErr.panic := by
  decide

/-- C2 (amended): for every token slice whose first token is a non-empty
`OpenTag` and which runs out of tokens before the nesting counter returns
to zero (captured by the hypothesis: every close tag in the remainder is
preceded in the remainder by strictly more counted opens than closes, so
no decrement reaches zero), `parse_element` panics with an out-of-bounds
slice index rather than failing gracefully. (Its graceful `None` returns
occur only when the first token is not an open tag, and even those are
converted by `.ctx(...)` into an `Unknown` "Missing expected value" error
that drops the context string naming the enclosing operation.) -/
theorem c2_exhausted_slice_panics (n : String) (a : Attributes)
    (rest : List HtmlElement)
    (h : ∀ p t q, rest = p ++ HtmlElement.CloseTag t :: q → 1 ≤ netDepth p) :
    parse_element (HtmlElement.OpenTag n a false :: rest) = ElemResult.panic := by
  have hloop : peLoop (HtmlElement.OpenTag n a false :: rest) 0 1
      = PeLoopResult.exhausted (2 + rest.length) := by
    have hstep : peLoop (HtmlElement.OpenTag n a false :: rest) 0 1
        = peLoop rest 1 2 := by
      simp [peLoop]
    rw [hstep]
    exact peLoop_exhausts rest 1 2 (by omega)
      (fun p t q hp => by have := h p t q hp; omega)
  simp [parse_element, hloop]

/-- C2 witness: the amended theorem at a slice of two non-empty open tags
and no close tag. -/
theorem c2_witness :
    parse_element [HtmlElement.OpenTag "span" [] false,
                   HtmlElement.OpenTag "b" [] false] = ElemResult.panic := by
  refine c2_exhausted_slice_panics "span" [] [HtmlElement.OpenTag "b" [] false] ?_
  intro p t q hp
  rcases p with _ | ⟨x, p⟩
  · simp at hp
  · simp at hp

/-! ### C9: fixed point of the compilation pass -/

theorem cpGo_no_invocations (templates : Templates) :
    ∀ (src : List HtmlElement) (fuel : Nat) (out : List HtmlElement) (n : Nat),
      src.length < fuel →
      noInvocationsB src templates = true →
      cpGo templates fuel src out n = CResult.ok (out ++ src, n) := by
  intro src
  induction src with
  | nil => intro fuel out n _ _; cases fuel <;> simp [cpGo]
  | cons lm rest ih =>
    intro fuel out n hlen hno
    rcases fuel with _ | fuel
    · omega
    simp only [noInvocationsB, List.all_cons, Bool.and_eq_true] at hno
    obtain ⟨h1, h2⟩ := hno
    have h2' : noInvocationsB rest templates = true := h2
    have hlen' : rest.length < fuel := by simp [List.length_cons] at hlen; omega
    cases lm with
    | OpenTag name attrs ie =>
      have hget : templatesGet templates name = none := by
        simpa [Option.isNone_iff_eq_none] using h1
      simp only [cpGo, hget]
      rw [ih fuel (out ++ [HtmlElement.OpenTag name attrs ie]) n hlen' h2']
      simp
    | DocType =>
      simp only [cpGo]
      rw [ih fuel (out ++ [HtmlElement.DocType]) n hlen' h2']
      simp
    | Comment s =>
      simp only [cpGo]
      rw [ih fuel (out ++ [HtmlElement.Comment s]) n hlen' h2']
      simp
    | CloseTag name =>
      simp only [cpGo]
      rw [ih fuel (out ++ [HtmlElement.CloseTag name]) n hlen' h2']
      simp
    | Text s =>
      simp only [cpGo]
      rw [ih fuel (out ++ [HtmlElement.Text s]) n hlen' h2']
      simp
    | Script a c =>
      simp only [cpGo]
      rw [ih fuel (out ++ [HtmlElement.Script a c]) n hlen' h2']
      simp
    | Style a c =>
      simp only [cpGo]
      rw [ih fuel (out ++ [HtmlElement.Style a c]) n hlen' h2']
      simp
    | Directive nm a c =>
      simp only [cpGo]
      rw [ih fuel (out ++ [HtmlElement.Directive nm a c]) n hlen' h2']
      simp

/-- C9: for every token sequence containing no `OpenTag` whose name is a
key of the store, `compilation_pass` returns exactly the same token
sequence with an expansion count of zero; consequently the driver loop
(the compile fixed point) immediately returns the same tokens, having
performed zero expansions. -/
theorem c9_fixed_point_idempotent (ts : List HtmlElement) (templates : Templates)
    (h : noInvocationsB ts templates = true) :
    compilation_pass ts templates = CResult.ok (ts, 0) ∧
    compileLoop templates RECURSION_LIMIT ts = CResult.ok ts := by
  have hpass : compilation_pass ts templates = CResult.ok (ts, 0) := by
    unfold compilation_pass
    rw [cpGo_no_invocations templates ts (ts.length + 1) [] 0 (by omega) h]
    simp
  refine ⟨hpass, ?_⟩
  show compileLoop templates (255 + 1) ts = CResult.ok ts
  simp [compileLoop, hpass]

/-- C9 witness: the theorem at a concrete sequence with tags absent from
the store. -/
theorem c9_witness :
    compilation_pass [HtmlElement.OpenTag "p" [] false, HtmlElement.Text "x",
        HtmlElement.CloseTag "p"] [("card", ⟨[], []⟩)]
      = CResult.ok ([HtmlElement.OpenTag "p" [] false, HtmlElement.Text "x",
        HtmlElement.CloseTag "p"], 0) ∧
    compileLoop [("card", ⟨[], []⟩)] RECURSION_LIMIT
        [HtmlElement.OpenTag "p" [] false, HtmlElement.Text "x",
         HtmlElement.CloseTag "p"]
      = CResult.ok [HtmlElement.OpenTag "p" [] false, HtmlElement.Text "x",
        HtmlElement.CloseTag "p"] :=
  c9_fixed_point_idempotent
    [HtmlElement.OpenTag "p" [] false, HtmlElement.Text "x", HtmlElement.CloseTag "p"]
    [("card", ⟨[], []⟩)] (by decide)

/-! ### C3: unbounded self-reintroduction hits the recursion limit -/

theorem compileLoop_recursion_aux (templates : Templates)
    (seqs : Nat → List HtmlElement) :
    ∀ (r : Nat) (j : Nat), 1 ≤ r →
    (∀ k, k < r → ∃ m, compilation_pass (seqs (j + k)) templates
        = CResult.ok (seqs (j + k + 1), m) ∧ 1 ≤ m ∧
        (seqs (j + k + 1)).length < LEXEME_MEMORY_LIMIT) →
    compileLoop templates r (seqs j)
      = CResult.error (CompErr.terr (compile_error "reached recursion limit expanding templates")) := by
  intro r
  induction r with
  | zero => intro j h _; omega
  | succ r ih =>
    intro j _ hp
    obtain ⟨m, hpass, hm, hlen⟩ := hp 0 (by omega)
    rw [Nat.add_zero] at hpass hlen
    have hm0 : ¬(m = 0) := by omega
    have hnotmem : ¬(LEXEME_MEMORY_LIMIT ≤ (seqs (j + 1)).length) := by omega
    simp only [compileLoop, hpass, if_neg hm0, if_neg hnotmem]
    rcases r with _ | r
    · simp
    · rw [if_neg (by omega : ¬(r + 1 = 0))]
      refine ih (j + 1) (by omega) ?_
      intro k hk
      obtain ⟨m2, h1, h2, h3⟩ := hp (k + 1) (by omega)
      have he1 : j + 1 + k = j + (k + 1) := by omega
      rw [he1]
      exact ⟨m2, h1, h2, h3⟩

/-- C3: for every store containing a blueprint whose body unconditionally
reintroduces an invocation — captured by the hypothesis that each of the
first 256 passes succeeds, performs at least one expansion, and leaves
the working sequence below the 65,535-token ceiling — `compile_source`
fails with the recursion-limit error after exactly `RECURSION_LIMIT = 256`
passes have completed. (Termination itself is inherent in the model:
`compileLoop` is a total function bounded by its remaining-iterations
argument, mirroring the bounded `for i in 1..=256` loop.) -/
theorem c3_recursion_limit (input : Chars) (templates : Templates)
    (seqs : Nat → List HtmlElement)
    (hlex : parse_html input = LexResult.ok (seqs 0))
    (hpass : ∀ k, k < RECURSION_LIMIT → ∃ m,
      compilation_pass (seqs k) templates = CResult.ok (seqs (k + 1), m) ∧
      1 ≤ m ∧ (seqs (k + 1)).length < LEXEME_MEMORY_LIMIT) :
    compile_source input templates
      = CResult.error (CompErr.terr (compile_error "reached recursion limit expanding templates")) := by
  unfold compile_source
  rw [hlex]
  have := compileLoop_recursion_aux templates seqs RECURSION_LIMIT 0
    (by simp [RECURSION_LIMIT])
    (by intro k hk; simpa using hpass k hk)
  simpa using this

/-- C3 witness: the blueprint `a` whose body is the self-invocation
`<a/>`; every pass performs exactly one expansion and keeps the sequence
at one token, and compiling `<a/>` fails with the recursion-limit
error. -/
theorem c3_witness :
    compile_source "<a/>".data [("a", ⟨[], [HtmlElement.OpenTag "a" [] true]⟩)]
      = CResult.error (CompErr.terr (compile_error "reached recursion limit expanding templates")) :=
  c3_recursion_limit "<a/>".data [("a", ⟨[], [HtmlElement.OpenTag "a" [] true]⟩)]
    (fun _ => [HtmlElement.OpenTag "a" [] true])
    (by decide)
    (by
      intro k hk
      show ∃ m, compilation_pass [HtmlElement.OpenTag "a" [] true]
          [("a", ⟨[], [HtmlElement.OpenTag "a" [] true]⟩)]
          = CResult.ok ([HtmlElement.OpenTag "a" [] true], m) ∧ 1 ≤ m ∧
          ([HtmlElement.OpenTag "a" [] true] : List HtmlElement).length < LEXEME_MEMORY_LIMIT
      exact ⟨1, by decide, by decide, by decide⟩)

/-! ### C4: guard order after each pass -/

/-- C4: after a compilation pass that performed at least one expansion
(`n ≠ 0`, i.e. no fixed point was reached), the two hard guards are
checked with the size guard first and the pass-count guard second: if the
working sequence's length reaches the 65,535-token ceiling the driver
fails with the memory-limit error — even on the 256th iteration, where
the pass-count guard would also fire (`r = 0` encodes
`i == RECURSION_LIMIT`); only otherwise, if 256 passes have completed
without reaching a fixed point, it fails with the recursion-limit
error. -/
theorem c4_guard_order (src new_source : List HtmlElement) (templates : Templates)
    (n r : Nat)
    (hpass : compilation_pass src templates = CResult.ok (new_source, n))
    (hn : n ≠ 0) :
    (LEXEME_MEMORY_LIMIT ≤ new_source.length →
      compileLoop templates (r + 1) src
        = CResult.error (CompErr.terr (compile_error "reached memory limit expanding templates"))) ∧
    (new_source.length < LEXEME_MEMORY_LIMIT → r = 0 →
      compileLoop templates (r + 1) src
        = CResult.error (CompErr.terr (compile_error "reached recursion limit expanding templates"))) := by
  constructor
  · intro hmem
    simp [compileLoop, hpass, hn, hmem]
  · intro hmem hr
    have : ¬(LEXEME_MEMORY_LIMIT ≤ new_source.length) := by omega
    simp [compileLoop, hpass, hn, this, hr]

/-- C4 witness: the self-reproducing pass over `[<a/>]` with the store
`a ↦ <a/>`, on the final iteration (`r = 0`): the size guard does not
fire (one token), so the pass-count guard produces the recursion-limit
error. -/
theorem c4_witness :
    compileLoop [("a", ⟨[], [HtmlElement.OpenTag "a" [] true]⟩)] 1
        [HtmlElement.OpenTag "a" [] true]
      = CResult.error (CompErr.terr (compile_error "reached recursion limit expanding templates")) :=
  (c4_guard_order [HtmlElement.OpenTag "a" [] true] [HtmlElement.OpenTag "a" [] true]
    [("a", ⟨[], [HtmlElement.OpenTag "a" [] true]⟩)] 1 0
    (by decide) (by decide)).2 (by decide) rfl

/-! ### C5: lexer tag-balance validation -/

theorem balRun_append :
    ∀ (a b : List HtmlElement) (stk : List String),
      balRun (a ++ b) stk
        = match balRun a stk with
          | none => none
          | some s => balRun b s := by
  intro a
  induction a with
  | nil => intro b stk; simp [balRun]
  | cons t a ih =>
    intro b stk
    cases t with
    | OpenTag n at0 ie =>
      cases ie
      · simpa [balRun] using ih b (n :: stk)
      · simpa [balRun] using ih b stk
    | CloseTag n =>
      rcases stk with _ | ⟨top, stk1⟩
      · simp [balRun]
      · by_cases htop : top = n
        · simpa [balRun, htop] using ih b stk1
        · simp [balRun, htop]
    | DocType => simpa [balRun] using ih b stk
    | Comment s => simpa [balRun] using ih b stk
    | Text s => simpa [balRun] using ih b stk
    | Script at0 c => simpa [balRun] using ih b stk
    | Style at0 c => simpa [balRun] using ih b stk
    | Directive n at0 c => simpa [balRun] using ih b stk

theorem balRun_frame :
    ∀ (a : List HtmlElement) (stk stk2 ex : List String),
      balRun a stk = some stk2 → balRun a (stk ++ ex) = some (stk2 ++ ex) := by
  intro a
  induction a with
  | nil => intro stk stk2 ex h; simp [balRun] at h ⊢; exact h
  | cons t a ih =>
    intro stk stk2 ex h
    cases t with
    | OpenTag n at0 ie =>
      cases ie
      · exact ih (n :: stk) stk2 ex h
      · exact ih stk stk2 ex h
    | CloseTag n =>
      rcases stk with _ | ⟨top, stk1⟩
      · simp [balRun] at h
      · by_cases htop : top = n
        · simp only [balRun, htop, if_pos rfl] at h
          subst htop
          simpa [balRun] using ih stk1 stk2 ex h
        · simp [balRun, htop] at h
    | DocType => exact ih stk stk2 ex h
    | Comment s => exact ih stk stk2 ex h
    | Text s => exact ih stk stk2 ex h
    | Script at0 c => exact ih stk stk2 ex h
    | Style at0 c => exact ih stk stk2 ex h
    | Directive n at0 c => exact ih stk stk2 ex h

theorem balRun_split :
    ∀ (N : Nat) (l : List HtmlElement), l.length ≤ N →
    ∀ (n : String) (stk : List String),
      balRun l (n :: stk) = some [] →
      ∃ inner rest, l = inner ++ HtmlElement.CloseTag n :: rest ∧
        balRun inner [] = some [] ∧ balRun rest stk = some [] := by
  intro N
  induction N with
  | zero =>
    intro l hl n stk h
    have : l = [] := by
      cases l with
      | nil => rfl
      | cons t l => simp at hl
    subst this
    simp [balRun] at h
  | succ N ih =>
    intro l hl n stk h
    cases l with
    | nil => simp [balRun] at h
    | cons t l2 =>
      cases t with
      | OpenTag m a ie =>
        cases ie with
        | true =>
          have h2 : balRun l2 (n :: stk) = some [] := by simpa [balRun] using h
          obtain ⟨inner, rest, heq, hi, hr⟩ := ih l2 (by simp at hl; omega) n stk h2
          exact ⟨HtmlElement.OpenTag m a true :: inner, rest, by rw [heq]; rfl,
            by simpa [balRun] using hi, hr⟩
        | false =>
          have h2 : balRun l2 (m :: n :: stk) = some [] := by simpa [balRun] using h
          obtain ⟨innerM, restM, heqM, hiM, hrM⟩ :=
            ih l2 (by simp at hl; omega) m (n :: stk) h2
          have hrestlen : restM.length ≤ N := by
            have := congrArg List.length heqM
            simp at this hl
            omega
          obtain ⟨inner2, rest2, heq2, hi2, hr2⟩ := ih restM hrestlen n stk hrM
          refine ⟨HtmlElement.OpenTag m a false :: innerM ++ HtmlElement.CloseTag m :: inner2,
            rest2, ?_, ?_, hr2⟩
          · rw [heqM, heq2]
            simp
          · have hinnerM : balRun innerM [m] = some [m] := by
              have := balRun_frame innerM [] [] [m] hiM
              simpa using this
            have : balRun (innerM ++ HtmlElement.CloseTag m :: inner2) [m] = some [] := by
              rw [balRun_append]
              simp [hinnerM, balRun]
              exact hi2
            simpa [balRun] using this
      | CloseTag m =>
        by_cases hm : n = m
        · subst hm
          have h2 : balRun l2 stk = some [] := by simpa [balRun] using h
          exact ⟨[], l2, rfl, by simp [balRun], h2⟩
        · simp [balRun, hm] at h
      | DocType =>
        have h2 : balRun l2 (n :: stk) = some [] := by simpa [balRun] using h
        obtain ⟨inner, rest, heq, hi, hr⟩ := ih l2 (by simp at hl; omega) n stk h2
        exact ⟨HtmlElement.DocType :: inner, rest, by rw [heq]; rfl,
          by simpa [balRun] using hi, hr⟩
      | Comment s =>
        have h2 : balRun l2 (n :: stk) = some [] := by simpa [balRun] using h
        obtain ⟨inner, rest, heq, hi, hr⟩ := ih l2 (by simp at hl; omega) n stk h2
        exact ⟨HtmlElement.Comment s :: inner, rest, by rw [heq]; rfl,
          by simpa [balRun] using hi, hr⟩
      | Text s =>
        have h2 : balRun l2 (n :: stk) = some [] := by simpa [balRun] using h
        obtain ⟨inner, rest, heq, hi, hr⟩ := ih l2 (by simp at hl; omega) n stk h2
        exact ⟨HtmlElement.Text s :: inner, rest, by rw [heq]; rfl,
          by simpa [balRun] using hi, hr⟩
      | Script a c =>
        have h2 : balRun l2 (n :: stk) = some [] := by simpa [balRun] using h
        obtain ⟨inner, rest, heq, hi, hr⟩ := ih l2 (by simp at hl; omega) n stk h2
        exact ⟨HtmlElement.Script a c :: inner, rest, by rw [heq]; rfl,
          by simpa [balRun] using hi, hr⟩
      | Style a c =>
        have h2 : balRun l2 (n :: stk) = some [] := by simpa [balRun] using h
        obtain ⟨inner, rest, heq, hi, hr⟩ := ih l2 (by simp at hl; omega) n stk h2
        exact ⟨HtmlElement.Style a c :: inner, rest, by rw [heq]; rfl,
          by simpa [balRun] using hi, hr⟩
      | Directive nm a c =>
        have h2 : balRun l2 (n :: stk) = some [] := by simpa [balRun] using h
        obtain ⟨inner, rest, heq, hi, hr⟩ := ih l2 (by simp at hl; omega) n stk h2
        exact ⟨HtmlElement.Directive nm a c :: inner, rest, by rw [heq]; rfl,
          by simpa [balRun] using hi, hr⟩

theorem balRun_WF_aux :
    ∀ (N : Nat) (l : List HtmlElement), l.length ≤ N →
      balRun l [] = some [] → WF l := by
  intro N
  induction N with
  | zero =>
    intro l hl _
    have : l = [] := by
      cases l with
      | nil => rfl
      | cons t l => simp at hl
    subst this
    exact WF.nil
  | succ N ih =>
    intro l hl h
    cases l with
    | nil => exact WF.nil
    | cons t l2 =>
      cases t with
      | OpenTag m a ie =>
        cases ie with
        | true =>
          exact WF.other _ _ rfl (ih l2 (by simp at hl; omega) (by simpa [balRun] using h))
        | false =>
          have h2 : balRun l2 (m :: []) = some [] := by simpa [balRun] using h
          obtain ⟨inner, rest, heq, hi, hr⟩ :=
            balRun_split l2.length l2 (by omega) m [] h2
          have hlen := congrArg List.length heq
          simp at hlen hl
          subst heq
          exact WF.pair m a inner rest
            (ih inner (by omega) hi) (ih rest (by omega) hr)
      | CloseTag m => simp [balRun] at h
      | DocType =>
        exact WF.other _ _ rfl (ih l2 (by simp at hl; omega) (by simpa [balRun] using h))
      | Comment s =>
        exact WF.other _ _ rfl (ih l2 (by simp at hl; omega) (by simpa [balRun] using h))
      | Text s =>
        exact WF.other _ _ rfl (ih l2 (by simp at hl; omega) (by simpa [balRun] using h))
      | Script a c =>
        exact WF.other _ _ rfl (ih l2 (by simp at hl; omega) (by simpa [balRun] using h))
      | Style a c =>
        exact WF.other _ _ rfl (ih l2 (by simp at hl; omega) (by simpa [balRun] using h))
      | Directive nm a c =>
        exact WF.other _ _ rfl (ih l2 (by simp at hl; omega) (by simpa [balRun] using h))

theorem balRun_WF (l : List HtmlElement) (h : balRun l [] = some []) : WF l :=
  balRun_WF_aux l.length l (by omega) h

theorem goLex_balanced (input : Chars) :
    ∀ (fuel : Nat) (i : Chars) (offset : Nat) (output : List HtmlElement)
      (stack : List String) (final : List HtmlElement),
      goLex input fuel i offset output stack = LexResult.ok final →
      ∃ nw, final = output ++ nw ∧ balRun nw stack = some [] := by
  intro fuel
  induction fuel with
  | zero =>
    intro i offset output stack final h
    cases i with
    | nil =>
      simp only [goLex] at h
      by_cases hs : stack.isEmpty
      · have hstack : stack = [] := by
          cases stack with
          | nil => rfl
          | cons a b => simp at hs
        refine ⟨[], ?_, by simp [hstack, balRun]⟩
        rw [if_pos hs] at h
        cases h
        simp
      · rw [if_neg hs] at h
        cases h
    | cons c cs => simp [goLex] at h
  | succ fuel ih =>
    intro i offset output stack final h
    cases i with
    | nil =>
      simp only [goLex] at h
      by_cases hs : stack.isEmpty
      · have hstack : stack = [] := by
          cases stack with
          | nil => rfl
          | cons a b => simp at hs
        refine ⟨[], ?_, by simp [hstack, balRun]⟩
        rw [if_pos hs] at h
        cases h
        simp
      · rw [if_neg hs] at h
        cases h
    | cons c cs =>
      simp only [goLex] at h
      rcases hnl : nextLexeme (c :: cs) with _ | ⟨olm, i1, o1⟩
      · rw [hnl] at h
        cases h
      rw [hnl] at h
      rcases olm with _ | lm
      · exact ih i1 (offset + o1) output stack final h
      dsimp only at h
      by_cases hmem : LEXEME_MEMORY_LIMIT ≤ output.length
      · rw [if_pos hmem] at h
        cases h
      rw [if_neg hmem] at h
      cases lm with
      | OpenTag name attrs ie =>
        cases ie with
        | false =>
          dsimp only at h
          obtain ⟨nw, hfin, hbal⟩ :=
            ih i1 (offset + o1) (output ++ [HtmlElement.OpenTag name attrs false])
              (name :: stack) final h
          refine ⟨HtmlElement.OpenTag name attrs false :: nw, ?_, ?_⟩
          · rw [hfin]; simp
          · simpa [balRun] using hbal
        | true =>
          dsimp only at h
          obtain ⟨nw, hfin, hbal⟩ :=
            ih i1 (offset + o1) (output ++ [HtmlElement.OpenTag name attrs true])
              stack final h
          refine ⟨HtmlElement.OpenTag name attrs true :: nw, ?_, ?_⟩
          · rw [hfin]; simp
          · simpa [balRun] using hbal
      | CloseTag name =>
        dsimp only at h
        rcases stack with _ | ⟨top, stack1⟩
        · dsimp only at h
          cases h
        · dsimp only at h
          by_cases htop : top = name
          · rw [if_pos htop] at h
            obtain ⟨nw, hfin, hbal⟩ :=
              ih i1 (offset + o1) (output ++ [HtmlElement.CloseTag name]) stack1 final h
            refine ⟨HtmlElement.CloseTag name :: nw, ?_, ?_⟩
            · rw [hfin]; simp
            · simpa [balRun, htop] using hbal
          · rw [if_neg htop] at h
            cases h
      | DocType =>
        dsimp only at h
        obtain ⟨nw, hfin, hbal⟩ :=
          ih i1 (offset + o1) (output ++ [HtmlElement.DocType]) stack final h
        exact ⟨HtmlElement.DocType :: nw, by rw [hfin]; simp, by simpa [balRun] using hbal⟩
      | Comment s =>
        dsimp only at h
        obtain ⟨nw, hfin, hbal⟩ :=
          ih i1 (offset + o1) (output ++ [HtmlElement.Comment s]) stack final h
        exact ⟨HtmlElement.Comment s :: nw, by rw [hfin]; simp, by simpa [balRun] using hbal⟩
      | Text s =>
        dsimp only at h
        obtain ⟨nw, hfin, hbal⟩ :=
          ih i1 (offset + o1) (output ++ [HtmlElement.Text s]) stack final h
        exact ⟨HtmlElement.Text s :: nw, by rw [hfin]; simp, by simpa [balRun] using hbal⟩
      | Script a c0 =>
        dsimp only at h
        obtain ⟨nw, hfin, hbal⟩ :=
          ih i1 (offset + o1) (output ++ [HtmlElement.Script a c0]) stack final h
        exact ⟨HtmlElement.Script a c0 :: nw, by rw [hfin]; simp, by simpa [balRun] using hbal⟩
      | Style a c0 =>
        dsimp only at h
        obtain ⟨nw, hfin, hbal⟩ :=
          ih i1 (offset + o1) (output ++ [HtmlElement.Style a c0]) stack final h
        exact ⟨HtmlElement.Style a c0 :: nw, by rw [hfin]; simp, by simpa [balRun] using hbal⟩
      | Directive nm a c0 =>
        dsimp only at h
        obtain ⟨nw, hfin, hbal⟩ :=
          ih i1 (offset + o1) (output ++ [HtmlElement.Directive nm a c0]) stack final h
        exact ⟨HtmlElement.Directive nm a c0 :: nw, by rw [hfin]; simp, by simpa [balRun] using hbal⟩

/-- C5: `lex` fails with a terminal tag-balance error on a close tag that
does not match the top of the open-tag stack (`<div><span></div>`), on a
close tag with an empty stack (`</div>`), and at end of input with a
non-empty stack (`<div>`); and every token sequence `lex` returns is
well-formed — each `OpenTag` with `is_empty = false` is matched by
exactly one same-named `CloseTag` in properly nested order and no
`CloseTag` appears unmatched (the inductive predicate `WF`). -/
theorem c5_tag_balance (input : Chars) (out : List HtmlElement)
    (h : parse_html input = LexResult.ok out) :
    WF out ∧
    isTagBalanceFailure (parse_html "<div><span></div>".data) = true ∧
    isTagBalanceFailure (parse_html "</div>".data) = true ∧
    isTagBalanceFailure (parse_html "<div>".data) = true := by
  refine ⟨?_, by decide, by decide, by decide⟩
  obtain ⟨nw, hfin, hbal⟩ :=
    goLex_balanced input (input.length + 1) input 0 [] [] out h
  rw [hfin]
  simpa using balRun_WF nw hbal

/-- C5 witness: the theorem applied to `<p>x</p>`, whose lexing succeeds,
yielding well-formedness of the returned sequence. -/
theorem c5_witness :
    WF [HtmlElement.OpenTag "p" [] false, HtmlElement.Text "x",
        HtmlElement.CloseTag "p"] :=
  (c5_tag_balance "<p>x</p>".data
    [HtmlElement.OpenTag "p" [] false, HtmlElement.Text "x", HtmlElement.CloseTag "p"]
    (by decide)).1

/-! ### C8: error taxonomy and the token-count ceiling -/

theorem goLex_length (input : Chars) :
    ∀ (fuel : Nat) (i : Chars) (offset : Nat) (output : List HtmlElement)
      (stack : List String) (final : List HtmlElement),
      goLex input fuel i offset output stack = LexResult.ok final →
      output.length ≤ LEXEME_MEMORY_LIMIT →
      final.length ≤ LEXEME_MEMORY_LIMIT := by
  intro fuel
  induction fuel with
  | zero =>
    intro i offset output stack final h hlen
    cases i with
    | nil =>
      simp only [goLex] at h
      by_cases hs : stack.isEmpty
      · rw [if_pos hs] at h; cases h; exact hlen
      · rw [if_neg hs] at h; cases h
    | cons c cs => simp [goLex] at h
  | succ fuel ih =>
    intro i offset output stack final h hlen
    cases i with
    | nil =>
      simp only [goLex] at h
      by_cases hs : stack.isEmpty
      · rw [if_pos hs] at h; cases h; exact hlen
      · rw [if_neg hs] at h; cases h
    | cons c cs =>
      simp only [goLex] at h
      rcases hnl : nextLexeme (c :: cs) with _ | ⟨olm, i1, o1⟩
      · rw [hnl] at h; cases h
      rw [hnl] at h
      rcases olm with _ | lm
      · exact ih i1 (offset + o1) output stack final h hlen
      dsimp only at h
      by_cases hmem : LEXEME_MEMORY_LIMIT ≤ output.length
      · rw [if_pos hmem] at h; cases h
      rw [if_neg hmem] at h
      have hlen1 : (output ++ [lm]).length ≤ LEXEME_MEMORY_LIMIT := by
        simp; omega
      cases lm with
      | OpenTag name attrs ie =>
        cases ie with
        | false =>
          dsimp only at h
          exact ih i1 (offset + o1) (output ++ [HtmlElement.OpenTag name attrs false])
            (name :: stack) final h hlen1
        | true =>
          dsimp only at h
          exact ih i1 (offset + o1) (output ++ [HtmlElement.OpenTag name attrs true])
            stack final h hlen1
      | CloseTag name =>
        dsimp only at h
        rcases stack with _ | ⟨top, stack1⟩
        · dsimp only at h; cases h
        · dsimp only at h
          by_cases htop : top = name
          · rw [if_pos htop] at h
            exact ih i1 (offset + o1) (output ++ [HtmlElement.CloseTag name]) stack1
              final h hlen1
          · rw [if_neg htop] at h; cases h
      | DocType =>
        dsimp only at h
        exact ih i1 (offset + o1) (output ++ [HtmlElement.DocType]) stack final h hlen1
      | Comment s =>
        dsimp only at h
        exact ih i1 (offset + o1) (output ++ [HtmlElement.Comment s]) stack final h hlen1
      | Text s =>
        dsimp only at h
        exact ih i1 (offset + o1) (output ++ [HtmlElement.Text s]) stack final h hlen1
      | Script a c0 =>
        dsimp only at h
        exact ih i1 (offset + o1) (output ++ [HtmlElement.Script a c0]) stack final h hlen1
      | Style a c0 =>
        dsimp only at h
        exact ih i1 (offset + o1) (output ++ [HtmlElement.Style a c0]) stack final h hlen1
      | Directive nm a c0 =>
        dsimp only at h
        exact ih i1 (offset + o1) (output ++ [HtmlElement.Directive nm a c0]) stack final h hlen1

/-- C8 counterexample: the claim states the error taxonomy includes a
`Memory` kind, carried by the token-count-ceiling failure and distinct
from `Parsing`. The taxonomy (`trace.rs` `ErrorKind`) has exactly the
four kinds IO, Parsing, Compilation, Unknown, and the conversion of the
lexer's `MemoryLimit` error yields kind `Parsing`. -/
theorem c8_counterexample :
    (toTraceError ⟨ParseErrorKind.memoryLimit, 0, 1, 1⟩).kind = ErrorKind.parsing ∧
    (toTraceError ⟨ParseErrorKind.memoryLimit, 0, 1, 1⟩).reason = "Ran out of memory" := by
  decide

/-- C8 (amended): the error taxonomy comprises exactly the kinds IO,
Parsing, Compilation, Unknown (there is no Memory kind); the
token-count-ceiling failure raised during lexing is converted to a trace
error of kind `Parsing` with reason "Ran out of memory"; and `lex` never
returns a sequence longer than 65,535 tokens. -/
theorem c8_taxonomy_and_ceiling :
    (∀ k : ErrorKind, k = ErrorKind.io ∨ k = ErrorKind.parsing ∨
      k = ErrorKind.compilation ∨ k = ErrorKind.unknown) ∧
    (∀ e : ParseError, e.kind = ParseErrorKind.memoryLimit →
      (toTraceError e).kind = ErrorKind.parsing ∧
      (toTraceError e).reason = "Ran out of memory") ∧
    (∀ input out, parse_html input = LexResult.ok out →
      out.length ≤ LEXEME_MEMORY_LIMIT) := by
  refine ⟨?_, ?_, ?_⟩
  · intro k; cases k
    · exact Or.inl rfl
    · exact Or.inr (Or.inl rfl)
    · exact Or.inr (Or.inr (Or.inl rfl))
    · exact Or.inr (Or.inr (Or.inr rfl))
  · intro e h
    simp [toTraceError, h]
  · intro input out h
    exact goLex_length input (input.length + 1) input 0 [] [] out h (by simp)

/-- C8 witness: the amended theorem applied at the concrete `MemoryLimit`
lexer error and at the input `"x"`. -/
theorem c8_witness :
    ((toTraceError ⟨ParseErrorKind.memoryLimit, 3, 2, 4⟩).kind = ErrorKind.parsing ∧
      (toTraceError ⟨ParseErrorKind.memoryLimit, 3, 2, 4⟩).reason = "Ran out of memory") ∧
    ([HtmlElement.Text "x"] : List HtmlElement).length ≤ LEXEME_MEMORY_LIMIT :=
  ⟨c8_taxonomy_and_ceiling.2.1 ⟨ParseErrorKind.memoryLimit, 3, 2, 4⟩ rfl,
    c8_taxonomy_and_ceiling.2.2 "x".data [HtmlElement.Text "x"] (by decide)⟩

/-! ### C10: comment serialization -/

/-- C10: for every `Comment` token, regardless of the text it carries,
serialization produces the fixed string `<!---->`; the token itself
preserves the captured text through lexing (`<!--abc-->x` lexes to
`Comment "abc"`) and through a compilation pass. -/
theorem c10_comment_serialization :
    (∀ (reg : String → Attributes → String → String) (s : String),
      serializeTok reg (HtmlElement.Comment s) = "<!---->") ∧
    parse_html "<!--abc-->x".data
      = LexResult.ok [HtmlElement.Comment "abc", HtmlElement.Text "x"] ∧
    compilation_pass [HtmlElement.Comment "abc"] []
      = CResult.ok ([HtmlElement.Comment "abc"], 0) := by
  refine ⟨fun reg s => rfl, by decide, by decide⟩

/-! ### C7: round trip — serialization data lemmas -/

theorem string_foldl_append_data :
    ∀ (l : List String) (a : String),
      (l.foldl (fun x y => x ++ y) a).data = a.data ++ (l.map String.data).flatten := by
  intro l
  induction l with
  | nil => intro a; simp
  | cons s l ih =>
    intro a
    simp only [List.foldl, List.map, List.flatten]
    rw [ih (a ++ s), String.data_append]
    simp

theorem string_join_data (l : List String) :
    (String.join l).data = (l.map String.data).flatten := by
  have h : String.join l = l.foldl (fun x y => x ++ y) "" := rfl
  rw [h, string_foldl_append_data]
  simp

theorem serAttrC_data (kv : String × String) :
    ((if kv.2 = "" then " " ++ kv.1 else " " ++ kv.1 ++ "=\"" ++ kv.2 ++ "\"") : String).data
      = serAttrC kv := by
  by_cases h : kv.2 = ""
  · simp only [if_pos h, serAttrC, String.data_append]
    simp
  · simp only [if_neg h, serAttrC, String.data_append]
    simp

theorem serialize_attributes_data (a : Attributes) :
    (serialize_attributes a).data = serAttrsC a := by
  unfold serialize_attributes serAttrsC
  rw [string_join_data]
  induction a with
  | nil => simp
  | cons kv a ih =>
    simp only [List.map, List.flatten, List.flatMap_cons]
    rw [ih]
    congr 1
    exact serAttrC_data kv

theorem serializeTok_data (reg : String → Attributes → String → String)
    (t : HtmlElement) : (serializeTok reg t).data = serTokC reg t := by
  cases t with
  | DocType => rfl
  | Comment s => rfl
  | OpenTag n a ie =>
    cases ie with
    | false =>
      show ("<" ++ n ++ serialize_attributes a ++ ">").data = _
      simp [String.data_append, serialize_attributes_data, serTokC]
    | true =>
      show ("<" ++ n ++ serialize_attributes a ++ "/>").data = _
      simp [String.data_append, serialize_attributes_data, serTokC]
  | CloseTag n =>
    show ("</" ++ n ++ ">").data = _
    simp [String.data_append, serTokC]
  | Style a c =>
    show ("<style" ++ serialize_attributes a ++ ">\n" ++ c ++ "\n</style>").data = _
    simp [String.data_append, serialize_attributes_data, serTokC]
  | Script a c =>
    show ("<script" ++ serialize_attributes a ++ ">\n" ++ c ++ "\n</script>").data = _
    simp [String.data_append, serialize_attributes_data, serTokC]
  | Text t => rfl
  | Directive n a c => rfl

theorem serialize_data (reg : String → Attributes → String → String)
    (ts : List HtmlElement) : (serialize reg ts).data = serAllC reg ts := by
  unfold serialize serAllC
  rw [string_join_data]
  induction ts with
  | nil => simp
  | cons t ts ih =>
    simp only [List.map, List.flatten, List.flatMap_cons]
    rw [ih, serializeTok_data]

/-! ### C7: character classes and primitive parsers -/

theorem nameChar_not_ws (c : Char) (h : nameChar c = true) : isWS c = false := by
  by_contra hw
  have hw' : isWS c = true := by
    cases hws : isWS c with
    | true => rfl
    | false => exact absurd hws hw
  simp only [isWS, Bool.or_eq_true, beq_iff_eq] at hw'
  rcases hw' with (((((h1 | h1) | h1) | h1) | h1) | h1) <;>
    (subst h1; exact absurd h (by decide))

theorem nameChar_ne (c d : Char) (hc : nameChar c = true)
    (hd : nameChar d = false) : c ≠ d := by
  intro h
  subst h
  rw [hc] at hd
  cases hd

theorem parse_until_exact (cond : Char → Bool) :
    ∀ (pre post : Chars),
      (∀ c ∈ pre, cond c = false) →
      (post = [] ∨ ∃ d post2, post = d :: post2 ∧ cond d = true) →
      parse_until (pre ++ post) cond = (pre, post, pre.length) := by
  intro pre
  induction pre with
  | nil =>
    intro post _ hpost
    rcases hpost with h | ⟨d, post2, hp, hd⟩
    · subst h; rfl
    · subst hp; simp [parse_until, hd]
  | cons c pre ih =>
    intro post hpre hpost
    have hc : cond c = false := hpre c (by simp)
    have := ih post (fun x hx => hpre x (by simp [hx])) hpost
    simp [parse_until, hc, this]

theorem zip_self_eqIgnoreCase :
    ∀ (m : Chars), (m.zip m).all (fun p => eqIgnoreCase p.1 p.2) = true := by
  intro m
  induction m with
  | nil => rfl
  | cons c m ih => simp [List.zip, eqIgnoreCase, ih]

theorem parse_str_exact (m rest : Chars) :
    parse_str (m ++ rest) m = some (m, rest, m.length) := by
  unfold parse_str
  have hlen : m.length ≤ (m ++ rest).length := by simp
  rw [if_pos hlen]
  rw [List.take_left, List.drop_left]
  rw [if_pos (zip_self_eqIgnoreCase m)]

theorem parse_str_of_matches (a m rest : Chars)
    (hlen : a.length = m.length)
    (hall : (a.zip m).all (fun p => eqIgnoreCase p.1 p.2) = true) :
    parse_str (a ++ rest) m = some (a, rest, m.length) := by
  unfold parse_str
  have h1 : m.length ≤ (a ++ rest).length := by simp; omega
  rw [if_pos h1]
  rw [← hlen, List.take_left, List.drop_left, if_pos hall]

theorem parse_str_head_mismatch (c d : Char) (r m : Chars)
    (h : eqIgnoreCase c d = false) :
    parse_str (c :: r) (d :: m) = none := by
  by_cases hl : (d :: m).length ≤ (c :: r).length
  · simp [parse_str, hl, h, List.take_succ_cons]
  · simp only [parse_str]
    rw [if_neg hl]

theorem parse_delimited_exact (v rest : Chars) (delim : Char)
    (hv : ∀ c ∈ v, (c == delim) = false) :
    parse_delimited (delim :: v ++ delim :: rest) delim
      = some (v, rest, v.length + 2) := by
  have h1 : parse_char (delim :: (v ++ delim :: rest)) delim
      = some (delim, v ++ delim :: rest, 1) := by simp [parse_char]
  have h2 : parse_until (v ++ delim :: rest) (fun c => c == delim)
      = (v, delim :: rest, v.length) :=
    parse_until_exact _ v (delim :: rest) hv (Or.inr ⟨delim, rest, rfl, by simp⟩)
  have h3 : parse_char (delim :: rest) delim = some (delim, rest, 1) := by
    simp [parse_char]
  simp [parse_delimited, h1, h2, h3]
  omega

/-! ### C7: attribute parsing -/

theorem parse_attribute_exact (k v : String) (restA : Chars)
    (hk1 : k.data ≠ []) (hk2 : ∀ c ∈ k.data, nameChar c = true)
    (hv2 : ∀ c ∈ v.data, (c == '"') = false) :
    ∃ o, parse_attribute (' ' :: (k.data ++ '=' :: '"' :: (v.data ++ '"' :: restA)))
      = some ((k, v), restA, o) := by
  have hr1 : parse_until (' ' :: (k.data ++ '=' :: '"' :: (v.data ++ '"' :: restA))) WS_REGEX
      = ([' '], k.data ++ '=' :: '"' :: (v.data ++ '"' :: restA), 1) := by
    have := parse_until_exact WS_REGEX [' ']
      (k.data ++ '=' :: '"' :: (v.data ++ '"' :: restA))
      (by intro c hc; simp at hc; subst hc; decide)
      (by
        rcases hkd : k.data with _ | ⟨c, kd⟩
        · exact absurd hkd hk1
        · refine Or.inr ⟨c, _, rfl, ?_⟩
          have : nameChar c = true := hk2 c (by rw [hkd]; simp)
          simp [WS_REGEX, nameChar_not_ws c this])
    simpa using this
  have hr2 : parse_until (k.data ++ '=' :: '"' :: (v.data ++ '"' :: restA)) NAME_REGEX
      = (k.data, '=' :: '"' :: (v.data ++ '"' :: restA), k.data.length) :=
    parse_until_exact NAME_REGEX k.data ('=' :: '"' :: (v.data ++ '"' :: restA))
      (by intro c hc; simp [NAME_REGEX, hk2 c hc])
      (Or.inr ⟨'=', _, rfl, by decide⟩)
  have hs1 : parse_until ('=' :: '"' :: (v.data ++ '"' :: restA)) WS_REGEX
      = ([], '=' :: '"' :: (v.data ++ '"' :: restA), 0) := by
    have := parse_until_exact WS_REGEX [] ('=' :: '"' :: (v.data ++ '"' :: restA))
      (by intro c hc; simp at hc)
      (Or.inr ⟨'=', _, rfl, by decide⟩)
    simpa using this
  have hstr : parse_str ('=' :: '"' :: (v.data ++ '"' :: restA)) "=".data
      = some (['='], '"' :: (v.data ++ '"' :: restA), 1) := by
    have := parse_str_exact "=".data ('"' :: (v.data ++ '"' :: restA))
    simpa using this
  have hs3 : parse_until ('"' :: (v.data ++ '"' :: restA)) WS_REGEX
      = ([], '"' :: (v.data ++ '"' :: restA), 0) := by
    have := parse_until_exact WS_REGEX [] ('"' :: (v.data ++ '"' :: restA))
      (by intro c hc; simp at hc)
      (Or.inr ⟨'"', _, rfl, by decide⟩)
    simpa using this
  have hdel : parse_delimited ('"' :: (v.data ++ '"' :: restA)) '"'
      = some (v.data, restA, v.data.length + 2) := by
    have := parse_delimited_exact v.data restA '"' hv2
    simpa using this
  have hk0 : ¬(k.data.length = 0) := by
    intro h
    exact hk1 (List.eq_nil_of_length_eq_zero h)
  refine ⟨1 + k.data.length + (0 + 1 + 0 + (v.data.length + 2)), ?_⟩
  simp only [parse_attribute, hr1, hr2, hs1, hstr, hs3, hdel, hk0, if_false]
  simp

theorem beq_false_symm {α : Type} [BEq α] [LawfulBEq α] (a b : α)
    (h : (a == b) = false) : (b == a) = false := by
  cases hba : (b == a) with
  | false => rfl
  | true =>
    have : b = a := eq_of_beq hba
    subst this
    simp at h

theorem parse_attribute_stop (d : Char) (ds : Chars) (hd : isWS d = false) :
    parse_attribute (d :: ds) = none := by
  have h1 : parse_until (d :: ds) WS_REGEX = ([], d :: ds, 0) := by
    simp [parse_until, WS_REGEX, hd]
  simp [parse_attribute, h1]

theorem serAttrC_shape (kv : String × String) (h : ¬(kv.2 = "")) (r : Chars) :
    serAttrC kv ++ r
      = ' ' :: (kv.1.data ++ '=' :: '"' :: (kv.2.data ++ '"' :: r)) := by
  simp [serAttrC, h]

theorem attrsLoop_exact :
    ∀ (a : Attributes) (fuel : Nat) (acc : Attributes) (d : Char) (ds : Chars),
      a.length < fuel →
      (∀ kv ∈ a, attrOK kv = true) →
      keysNodup a = true →
      (∀ kv ∈ a, acc.any (fun p => p.1 == kv.1) = false) →
      isWS d = false →
      ∃ o, attrsLoop fuel (a.flatMap serAttrC ++ d :: ds) acc
        = (d :: ds, acc ++ a, o) := by
  intro a
  induction a with
  | nil =>
    intro fuel acc d ds hfuel _ _ _ hd
    rcases fuel with _ | fuel
    · omega
    refine ⟨0, ?_⟩
    simp [attrsLoop, parse_attribute_stop d ds hd]
  | cons kv a ih =>
    intro fuel acc d ds hfuel hok hnd hdisj hd
    rcases fuel with _ | fuel
    · omega
    have hokkv := hok kv (by simp)
    simp only [attrOK, Bool.and_eq_true, Bool.not_eq_true'] at hokkv
    obtain ⟨⟨⟨hk1, hk2⟩, hv1⟩, hv2⟩ := hokkv
    have hk1' : kv.1.data ≠ [] := by
      intro h
      rw [h] at hk1
      simp at hk1
    have hk2' : ∀ c ∈ kv.1.data, nameChar c = true := by
      intro c hc
      exact List.all_eq_true.mp hk2 c hc
    have hv2' : ∀ c ∈ kv.2.data, (c == '"') = false := by
      intro c hc
      have := List.all_eq_true.mp hv2 c hc
      simpa using this
    have hv1' : ¬(kv.2 = "") := by
      intro h
      rw [h] at hv1
      simp at hv1
    have hshape : (kv :: a).flatMap serAttrC ++ d :: ds
        = ' ' :: (kv.1.data ++ '=' :: '"' :: (kv.2.data ++ '"' ::
            (a.flatMap serAttrC ++ d :: ds))) := by
      rw [List.flatMap_cons, List.append_assoc]
      exact serAttrC_shape kv hv1' _
    obtain ⟨o1, hpa⟩ := parse_attribute_exact kv.1 kv.2
      (a.flatMap serAttrC ++ d :: ds) hk1' hk2' hv2'
    have hfresh : acc.any (fun p => p.1 == kv.1) = false := hdisj kv (by simp)
    have hins : attrInsert acc kv.1 kv.2 = acc ++ [kv] := by
      rw [attrInsert_fresh acc kv.1 kv.2 hfresh]
    have hnd' : keysNodup a = true := by
      simp only [keysNodup, Bool.and_eq_true] at hnd
      exact hnd.2
    have hdisj' : ∀ kv2 ∈ a, (acc ++ [kv]).any (fun p => p.1 == kv2.1) = false := by
      intro kv2 hkv2
      have h1 : acc.any (fun p => p.1 == kv2.1) = false := hdisj kv2 (by simp [hkv2])
      have h2 : (kv.1 == kv2.1) = false := by
        simp only [keysNodup, Bool.and_eq_true, Bool.not_eq_true'] at hnd
        have := hnd.1
        have h3 : (kv2.1 == kv.1) = false :=
          Bool.eq_false_iff.mpr (List.any_eq_false.mp this kv2 hkv2)
        exact beq_false_symm _ _ h3
      simp [List.any_append, h1, h2]
    obtain ⟨o2, hrec⟩ := ih fuel (acc ++ [kv]) d ds
      (by simp at hfuel ⊢; omega) (fun kv2 h2 => hok kv2 (by simp [h2])) hnd' hdisj' hd
    refine ⟨o1 + o2, ?_⟩
    rw [hshape]
    simp only [attrsLoop, hpa, hins, hrec]
    simp

/-! ### C7: tag parsers -/

theorem serAttrC_head (kv : String × String) : ∃ tl, serAttrC kv = ' ' :: tl := by
  by_cases h : kv.2 = "" <;> simp [serAttrC, h]

theorem serAttrsC_length (a : Attributes) : a.length ≤ (serAttrsC a).length := by
  induction a with
  | nil => simp [serAttrsC]
  | cons kv a ih =>
    obtain ⟨tl, htl⟩ := serAttrC_head kv
    have hsplit : serAttrsC (kv :: a) = serAttrC kv ++ serAttrsC a := by
      simp [serAttrsC]
    rw [hsplit, htl]
    simp only [List.length_append, List.length_cons]
    omega

theorem name_post_head (a : Attributes) (d : Char) (ds : Chars)
    (hd : NAME_REGEX d = true) :
    serAttrsC a ++ d :: ds = [] ∨
      ∃ e post2, serAttrsC a ++ d :: ds = e :: post2 ∧ NAME_REGEX e = true := by
  cases a with
  | nil => exact Or.inr ⟨d, ds, by simp [serAttrsC], hd⟩
  | cons kv a =>
    obtain ⟨tl, htl⟩ := serAttrC_head kv
    refine Or.inr ⟨' ', tl ++ (a.flatMap serAttrC ++ d :: ds), ?_, by decide⟩
    simp [serAttrsC, htl]

theorem parse_until_stop (cond : Char → Bool) (d : Char) (ds : Chars)
    (hd : cond d = true) : parse_until (d :: ds) cond = ([], d :: ds, 0) := by
  simp [parse_until, hd]

theorem parse_open_tag_exact_nonempty (n : String) (a : Attributes) (rest : Chars)
    (hn1 : n.data ≠ []) (hn2 : ∀ c ∈ n.data, nameChar c = true)
    (hattrs : ∀ kv ∈ a, attrOK kv = true) (hnd : keysNodup a = true)
    (hvoid : VOID_ELEMENTS.contains n = false) :
    ∃ o, parse_open_tag ('<' :: (n.data ++ (serAttrsC a ++ '>' :: rest)))
      = some (HtmlElement.OpenTag n a false, rest, o) := by
  have hstr1 : parse_str ('<' :: (n.data ++ (serAttrsC a ++ '>' :: rest))) "<".data
      = some (['<'], n.data ++ (serAttrsC a ++ '>' :: rest), 1) := by
    have := parse_str_exact "<".data (n.data ++ (serAttrsC a ++ '>' :: rest))
    simpa using this
  have hname : parse_until (n.data ++ (serAttrsC a ++ '>' :: rest)) NAME_REGEX
      = (n.data, serAttrsC a ++ '>' :: rest, n.data.length) :=
    parse_until_exact NAME_REGEX n.data (serAttrsC a ++ '>' :: rest)
      (by intro c hc; simp [NAME_REGEX, hn2 c hc])
      (name_post_head a '>' rest (by decide))
  obtain ⟨oA, hAL⟩ := attrsLoop_exact a
    (attrsFuel (serAttrsC a ++ '>' :: rest)) [] '>' rest
    (by have := serAttrsC_length a; simp [attrsFuel]; omega)
    hattrs hnd (by intro kv _; simp) (by decide)
  have hflat : List.flatMap a serAttrC = serAttrsC a := rfl
  rw [hflat] at hAL
  have hws : parse_until ('>' :: rest) WS_REGEX = ([], '>' :: rest, 0) :=
    parse_until_stop WS_REGEX '>' rest (by decide)
  have hslash : parse_str ('>' :: rest) "/".data = none := by
    have := parse_str_head_mismatch '>' '/' rest [] (by decide)
    simpa using this
  have hgt : parse_char ('>' :: rest) '>' = some ('>', rest, 1) := by
    simp [parse_char]
  refine ⟨1 + n.data.length + oA + 0 + 0 + 1, ?_⟩
  have hmk : String.mk n.data = n := rfl
  simp only [parse_open_tag, hstr1, hname]
  rw [hAL]
  simp only [hws, hslash, hgt, hmk, hvoid]
  simp

theorem parse_open_tag_exact_empty (n : String) (a : Attributes) (rest : Chars)
    (hn1 : n.data ≠ []) (hn2 : ∀ c ∈ n.data, nameChar c = true)
    (hattrs : ∀ kv ∈ a, attrOK kv = true) (hnd : keysNodup a = true) :
    ∃ o, parse_open_tag ('<' :: (n.data ++ (serAttrsC a ++ '/' :: '>' :: rest)))
      = some (HtmlElement.OpenTag n a true, rest, o) := by
  have hstr1 : parse_str ('<' :: (n.data ++ (serAttrsC a ++ '/' :: '>' :: rest))) "<".data
      = some (['<'], n.data ++ (serAttrsC a ++ '/' :: '>' :: rest), 1) := by
    have := parse_str_exact "<".data (n.data ++ (serAttrsC a ++ '/' :: '>' :: rest))
    simpa using this
  have hname : parse_until (n.data ++ (serAttrsC a ++ '/' :: '>' :: rest)) NAME_REGEX
      = (n.data, serAttrsC a ++ '/' :: '>' :: rest, n.data.length) :=
    parse_until_exact NAME_REGEX n.data (serAttrsC a ++ '/' :: '>' :: rest)
      (by intro c hc; simp [NAME_REGEX, hn2 c hc])
      (name_post_head a '/' ('>' :: rest) (by decide))
  obtain ⟨oA, hAL⟩ := attrsLoop_exact a
    (attrsFuel (serAttrsC a ++ '/' :: '>' :: rest)) [] '/' ('>' :: rest)
    (by have := serAttrsC_length a; simp [attrsFuel]; omega)
    hattrs hnd (by intro kv _; simp) (by decide)
  have hflat : List.flatMap a serAttrC = serAttrsC a := rfl
  rw [hflat] at hAL
  have hws : parse_until ('/' :: '>' :: rest) WS_REGEX = ([], '/' :: '>' :: rest, 0) :=
    parse_until_stop WS_REGEX '/' ('>' :: rest) (by decide)
  have hslash : parse_str ('/' :: '>' :: rest) "/".data
      = some (['/'], '>' :: rest, 1) := by
    have := parse_str_exact "/".data ('>' :: rest)
    simpa using this
  have hgt : parse_char ('>' :: rest) '>' = some ('>', rest, 1) := by
    simp [parse_char]
  refine ⟨1 + n.data.length + oA + 0 + 1 + 1, ?_⟩
  have hmk : String.mk n.data = n := rfl
  simp only [parse_open_tag, hstr1, hname]
  simp only [hAL, hws, hslash, hgt, hmk]
  simp

theorem parse_close_tag_exact (n : String) (rest : Chars)
    (hn1 : n.data ≠ []) (hn2 : ∀ c ∈ n.data, nameChar c = true) :
    ∃ o, parse_close_tag ('<' :: '/' :: (n.data ++ '>' :: rest))
      = some (HtmlElement.CloseTag n, rest, o) := by
  have hstr1 : parse_str ('<' :: '/' :: (n.data ++ '>' :: rest)) "</".data
      = some (['<', '/'], n.data ++ '>' :: rest, 2) := by
    have := parse_str_exact "</".data (n.data ++ '>' :: rest)
    simpa using this
  have hname : parse_until (n.data ++ '>' :: rest) NAME_REGEX
      = (n.data, '>' :: rest, n.data.length) :=
    parse_until_exact NAME_REGEX n.data ('>' :: rest)
      (by intro c hc; simp [NAME_REGEX, hn2 c hc])
      (Or.inr ⟨'>', rest, rfl, by decide⟩)
  have hws : parse_until ('>' :: rest) WS_REGEX = ([], '>' :: rest, 0) :=
    parse_until_stop WS_REGEX '>' rest (by decide)
  have hgt : parse_str ('>' :: rest) ">".data = some (['>'], rest, 1) := by
    have := parse_str_exact ">".data rest
    simpa using this
  have hn0 : ¬(n.data.length = 0) := by
    intro h
    exact hn1 (List.eq_nil_of_length_eq_zero h)
  refine ⟨2 + n.data.length + 0 + 1, ?_⟩
  have hmk : String.mk n.data = n := rfl
  simp only [parse_close_tag, hstr1, hname, hws, hgt, hmk, hn0, if_false]

theorem parse_doctype_exact (rest : Chars) :
    ∃ o, parse_doctype ("<!DOCTYPE html>".data ++ rest)
      = some (HtmlElement.DocType, rest, o) := by
  have hsplit : "<!DOCTYPE html>".data ++ rest
      = "<!DOCTYPE".data ++ (' ' :: ("html".data ++ '>' :: rest)) := rfl
  have hstr1 : parse_str ("<!DOCTYPE".data ++ (' ' :: ("html".data ++ '>' :: rest)))
      "<!doctype".data
      = some ("<!DOCTYPE".data, ' ' :: ("html".data ++ '>' :: rest), 9) := by
    have := parse_str_of_matches "<!DOCTYPE".data "<!doctype".data
      (' ' :: ("html".data ++ '>' :: rest)) (by decide) (by decide)
    simpa using this
  have hws : parse_until (' ' :: ("html".data ++ '>' :: rest)) WS_REGEX
      = ([' '], "html".data ++ '>' :: rest, 1) := by
    have := parse_until_exact WS_REGEX [' '] ("html".data ++ '>' :: rest)
      (by intro c hc; simp at hc; subst hc; decide)
      (Or.inr ⟨'h', "tml".data ++ '>' :: rest, rfl, by decide⟩)
    simpa using this
  have hhtml : parse_str ("html".data ++ '>' :: rest) "html".data
      = some ("html".data, '>' :: rest, 4) := by
    have := parse_str_exact "html".data ('>' :: rest)
    simpa using this
  have hws2 : parse_until ('>' :: rest) WS_REGEX = ([], '>' :: rest, 0) :=
    parse_until_stop WS_REGEX '>' rest (by decide)
  have hgt : parse_str ('>' :: rest) ">".data = some (['>'], rest, 1) := by
    have := parse_str_exact ">".data rest
    simpa using this
  refine ⟨9 + 1 + 4 + 0 + 1, ?_⟩
  rw [hsplit]
  simp only [parse_doctype, hstr1, hws, hhtml, hws2, hgt]
  simp

/-! ### C7: dispatch -/

theorem prefix_cons_false (d : Char) (m : Chars) (c : Char) (X : Chars)
    (h : (d == c) = false) : ((d :: m).isPrefixOf (c :: X)) = false := by
  simp [List.isPrefixOf]
  intro hdc
  rw [hdc] at h
  simp at h

theorem not_prefix_extend :
    ∀ (s nd : Chars) (d : Char) (r2 : Chars),
      (∀ c ∈ s, nameChar c = true) → nameChar d = false →
      s.isPrefixOf nd = false → s.isPrefixOf (nd ++ d :: r2) = false := by
  intro s
  induction s with
  | nil => intro nd d r2 _ _ h; simp [List.isPrefixOf] at h
  | cons a s ih =>
    intro nd d r2 hs hd h
    cases nd with
    | nil =>
      have ha : nameChar a = true := hs a (by simp)
      have : (a == d) = false := by
        cases had : (a == d) with
        | false => rfl
        | true =>
          have : a = d := eq_of_beq had
          subst this
          rw [ha] at hd
          cases hd
      simpa [List.isPrefixOf] using prefix_cons_false a s d r2 this
    | cons b nd2 =>
      by_cases hab : (a == b) = true
      · have h2 : s.isPrefixOf nd2 = false := by
          simp [List.isPrefixOf, hab] at h
          exact h
        have := ih nd2 d r2 (fun c hc => hs c (by simp [hc])) hd h2
        simp [List.isPrefixOf, hab, this]
      · have hab' : (a == b) = false := by
          cases hab2 : (a == b) with
          | false => rfl
          | true => exact absurd hab2 hab
        simp [List.isPrefixOf, hab']

theorem open_tail_head (a : Attributes) (E : Char) (es : Chars)
    (hE : nameChar E = false) :
    ∃ d ds, serAttrsC a ++ E :: es = d :: ds ∧ nameChar d = false := by
  cases a with
  | nil => exact ⟨E, es, by simp [serAttrsC], hE⟩
  | cons kv a =>
    obtain ⟨tl, htl⟩ := serAttrC_head kv
    refine ⟨' ', tl ++ (a.flatMap serAttrC ++ E :: es), ?_, by decide⟩
    simp [serAttrsC, htl]

theorem nextLexeme_doctype (rest : Chars) :
    ∃ o, nextLexeme ("<!DOCTYPE html>".data ++ rest)
      = some (some HtmlElement.DocType, rest, o) := by
  obtain ⟨o, hd⟩ := parse_doctype_exact rest
  refine ⟨o, ?_⟩
  have h1 : ("<!--".data.isPrefixOf ("<!DOCTYPE html>".data ++ rest)) = false := by
    simp [List.isPrefixOf]
  have h2 : ("<!".data.isPrefixOf ("<!DOCTYPE html>".data ++ rest)) = true := by
    simp [List.isPrefixOf]
  simp only [nextLexeme, h1, h2, Bool.false_eq_true, if_false, if_true, hd]
  rfl

theorem nextLexeme_text (t : String) (rest : Chars)
    (hok : tokOK (HtmlElement.Text t) = true)
    (hrest : rest = [] ∨ ∃ r2, rest = '<' :: r2) :
    nextLexeme (t.data ++ rest)
      = some (some (HtmlElement.Text t), rest, t.data.length) := by
  simp only [tokOK, Bool.and_eq_true, Bool.not_eq_true'] at hok
  obtain ⟨⟨hne, hlt⟩, hws⟩ := hok
  have hne' : t.data ≠ [] := by
    intro h
    rw [h] at hne
    simp at hne
  obtain ⟨c, td, ht⟩ : ∃ c td, t.data = c :: td := by
    rcases h2 : t.data with _ | ⟨c2, td2⟩
    · exact absurd h2 hne'
    · exact ⟨c2, td2, rfl⟩
  have hc : (c == '<') = false := by
    have := List.all_eq_true.mp hlt c (by rw [ht]; simp)
    simpa using this
  have hc' : ('<' == c) = false := beq_false_symm c '<' hc
  have hshape : t.data ++ rest = c :: (td ++ rest) := by rw [ht]; rfl
  have hpt : parse_text (t.data ++ rest) = (t.data, rest, t.data.length) := by
    refine parse_until_exact _ t.data rest ?_ ?_
    · intro x hx
      have := List.all_eq_true.mp hlt x hx
      simpa using this
    · rcases hrest with h | ⟨r2, h⟩
      · exact Or.inl h
      · exact Or.inr ⟨'<', r2, h, by simp⟩
  have d1 : ("<!--".data.isPrefixOf (t.data ++ rest)) = false := by
    rw [hshape]; simp [List.isPrefixOf, hc']
  have d2 : ("<!".data.isPrefixOf (t.data ++ rest)) = false := by
    rw [hshape]; simp [List.isPrefixOf, hc']
  have d3 : ("<style".data.isPrefixOf (t.data ++ rest)) = false := by
    rw [hshape]; simp [List.isPrefixOf, hc']
  have d4 : ("<script".data.isPrefixOf (t.data ++ rest)) = false := by
    rw [hshape]; simp [List.isPrefixOf, hc']
  have d5 : ("</".data.isPrefixOf (t.data ++ rest)) = false := by
    rw [hshape]; simp [List.isPrefixOf, hc']
  have d6 : ("<@".data.isPrefixOf (t.data ++ rest)) = false := by
    rw [hshape]; simp [List.isPrefixOf, hc']
  have d7 : ("<".data.isPrefixOf (t.data ++ rest)) = false := by
    rw [hshape]; simp [List.isPrefixOf, hc']
  have hmk : String.mk t.data = t := rfl
  simp only [nextLexeme, d1, d2, d3, d4, d5, d6, d7, Bool.false_eq_true, if_false, hpt,
    hws, hmk]

theorem nameChar_beq_false (c d : Char) (hc : nameChar c = true)
    (hd : nameChar d = false) : (c == d) = false := by
  cases h : (c == d) with
  | false => rfl
  | true =>
    have : c = d := eq_of_beq h
    subst this
    rw [hc] at hd
    cases hd

theorem nextLexeme_open (reg : String → Attributes → String → String)
    (n : String) (a : Attributes) ( is_empty : Bool) (rest : Chars)
    (hok : tokOK (HtmlElement.OpenTag n a is_empty) = true) :
    ∃ o, nextLexeme (serTokC reg (HtmlElement.OpenTag n a is_empty) ++ rest)
      = some (some (HtmlElement.OpenTag n a is_empty), rest, o) := by
  simp only [tokOK, nameOK, Bool.and_eq_true, Bool.not_eq_true'] at hok
  obtain ⟨⟨⟨⟨⟨⟨⟨hne, hnc⟩, hat⟩, hsty⟩, hscr⟩, hattrs⟩, hnd⟩, hie⟩ := hok
  have hne' : n.data ≠ [] := by
    intro h
    rw [h] at hne
    simp at hne
  have hnc' : ∀ c ∈ n.data, nameChar c = true := fun c hc => List.all_eq_true.mp hnc c hc
  obtain ⟨c0, nd, hn0⟩ : ∃ c0 nd, n.data = c0 :: nd := by
    rcases h2 : n.data with _ | ⟨c2, nd2⟩
    · exact absurd h2 hne'
    · exact ⟨c2, nd2, rfl⟩
  have hc0 : nameChar c0 = true := hnc' c0 (by rw [hn0]; simp)
  have hbang : ('!' == c0) = false :=
    beq_false_symm c0 '!' (nameChar_beq_false c0 '!' hc0 (by decide))
  have hslash : ('/' == c0) = false :=
    beq_false_symm c0 '/' (nameChar_beq_false c0 '/' hc0 (by decide))
  have hat' : ('@' == c0) = false := by
    refine beq_false_symm c0 '@' ?_
    cases h : (c0 == '@') with
    | false => rfl
    | true =>
      have : c0 = '@' := eq_of_beq h
      subst this
      rw [hn0] at hat
      simp at hat
  have hattrs' : ∀ kv ∈ a, attrOK kv = true := fun kv hkv => List.all_eq_true.mp hattrs kv hkv
  revert hie
  cases is_empty with
  | false =>
    intro hie
    have hvoid : VOID_ELEMENTS.contains n = false := by
      simpa using hie
    have hshape : serTokC reg (HtmlElement.OpenTag n a false) ++ rest
        = '<' :: (n.data ++ (serAttrsC a ++ '>' :: rest)) := by
      simp [serTokC]
    obtain ⟨d, ds, hY, hd⟩ := open_tail_head a '>' rest (by decide)
    have hx : n.data ++ (serAttrsC a ++ '>' :: rest) = c0 :: (nd ++ (serAttrsC a ++ '>' :: rest)) := by
      rw [hn0]; rfl
    have hstyX : ("style".data.isPrefixOf (n.data ++ (serAttrsC a ++ '>' :: rest))) = false := by
      rw [hY]
      exact not_prefix_extend "style".data n.data d ds (by decide) hd hsty
    have hscrX : ("script".data.isPrefixOf (n.data ++ (serAttrsC a ++ '>' :: rest))) = false := by
      rw [hY]
      exact not_prefix_extend "script".data n.data d ds (by decide) hd hscr
    have d1 : ("<!--".data.isPrefixOf ('<' :: (n.data ++ (serAttrsC a ++ '>' :: rest)))) = false := by
      rw [hx]; simp [List.isPrefixOf, hbang]
    have d2 : ("<!".data.isPrefixOf ('<' :: (n.data ++ (serAttrsC a ++ '>' :: rest)))) = false := by
      rw [hx]; simp [List.isPrefixOf, hbang]
    have d3 : ("<style".data.isPrefixOf ('<' :: (n.data ++ (serAttrsC a ++ '>' :: rest)))) = false := by
      simp only [List.isPrefixOf]
      simp [hstyX]
    have d4 : ("<script".data.isPrefixOf ('<' :: (n.data ++ (serAttrsC a ++ '>' :: rest)))) = false := by
      simp only [List.isPrefixOf]
      simp [hscrX]
    have d5 : ("</".data.isPrefixOf ('<' :: (n.data ++ (serAttrsC a ++ '>' :: rest)))) = false := by
      rw [hx]; simp [List.isPrefixOf, hslash]
    have d6 : ("<@".data.isPrefixOf ('<' :: (n.data ++ (serAttrsC a ++ '>' :: rest)))) = false := by
      rw [hx]; simp [List.isPrefixOf, hat']
    obtain ⟨o, hopen⟩ := parse_open_tag_exact_nonempty n a rest hne' hnc' hattrs' hnd hvoid
    refine ⟨o, ?_⟩
    rw [hshape]
    simp only [nextLexeme, d1, d2, d3, d4, d5, d6, Bool.false_eq_true, if_false]
    rw [if_pos (by simp [List.isPrefixOf])]
    rw [hopen]
    rfl
  | true =>
    intro _
    have hshape : serTokC reg (HtmlElement.OpenTag n a true) ++ rest
        = '<' :: (n.data ++ (serAttrsC a ++ '/' :: '>' :: rest)) := by
      simp [serTokC]
    obtain ⟨d, ds, hY, hd⟩ := open_tail_head a '/' ('>' :: rest) (by decide)
    have hx : n.data ++ (serAttrsC a ++ '/' :: '>' :: rest) = c0 :: (nd ++ (serAttrsC a ++ '/' :: '>' :: rest)) := by
      rw [hn0]; rfl
    have hstyX : ("style".data.isPrefixOf (n.data ++ (serAttrsC a ++ '/' :: '>' :: rest))) = false := by
      rw [hY]
      exact not_prefix_extend "style".data n.data d ds (by decide) hd hsty
    have hscrX : ("script".data.isPrefixOf (n.data ++ (serAttrsC a ++ '/' :: '>' :: rest))) = false := by
      rw [hY]
      exact not_prefix_extend "script".data n.data d ds (by decide) hd hscr
    have d1 : ("<!--".data.isPrefixOf ('<' :: (n.data ++ (serAttrsC a ++ '/' :: '>' :: rest)))) = false := by
      rw [hx]; simp [List.isPrefixOf, hbang]
    have d2 : ("<!".data.isPrefixOf ('<' :: (n.data ++ (serAttrsC a ++ '/' :: '>' :: rest)))) = false := by
      rw [hx]; simp [List.isPrefixOf, hbang]
    have d3 : ("<style".data.isPrefixOf ('<' :: (n.data ++ (serAttrsC a ++ '/' :: '>' :: rest)))) = false := by
      simp only [List.isPrefixOf]
      simp [hstyX]
    have d4 : ("<script".data.isPrefixOf ('<' :: (n.data ++ (serAttrsC a ++ '/' :: '>' :: rest)))) = false := by
      simp only [List.isPrefixOf]
      simp [hscrX]
    have d5 : ("</".data.isPrefixOf ('<' :: (n.data ++ (serAttrsC a ++ '/' :: '>' :: rest)))) = false := by
      rw [hx]; simp [List.isPrefixOf, hslash]
    have d6 : ("<@".data.isPrefixOf ('<' :: (n.data ++ (serAttrsC a ++ '/' :: '>' :: rest)))) = false := by
      rw [hx]; simp [List.isPrefixOf, hat']
    obtain ⟨o, hopen⟩ := parse_open_tag_exact_empty n a rest hne' hnc' hattrs' hnd
    refine ⟨o, ?_⟩
    rw [hshape]
    simp only [nextLexeme, d1, d2, d3, d4, d5, d6, Bool.false_eq_true, if_false]
    rw [if_pos (by simp [List.isPrefixOf])]
    rw [hopen]
    rfl

theorem nextLexeme_close (reg : String → Attributes → String → String)
    (n : String) (rest : Chars)
    (hok : tokOK (HtmlElement.CloseTag n) = true) :
    ∃ o, nextLexeme (serTokC reg (HtmlElement.CloseTag n) ++ rest)
      = some (some (HtmlElement.CloseTag n), rest, o) := by
  simp only [tokOK, nameOK, Bool.and_eq_true, Bool.not_eq_true'] at hok
  obtain ⟨⟨⟨⟨hne, hnc⟩, hat⟩, hsty⟩, hscr⟩ := hok
  have hne' : n.data ≠ [] := by
    intro h
    rw [h] at hne
    simp at hne
  have hnc' : ∀ c ∈ n.data, nameChar c = true := fun c hc => List.all_eq_true.mp hnc c hc
  have hshape : serTokC reg (HtmlElement.CloseTag n) ++ rest
      = '<' :: '/' :: (n.data ++ '>' :: rest) := by
    simp [serTokC]
  have d1 : ("<!--".data.isPrefixOf ('<' :: '/' :: (n.data ++ '>' :: rest))) = false := by
    simp [List.isPrefixOf]
  have d2 : ("<!".data.isPrefixOf ('<' :: '/' :: (n.data ++ '>' :: rest))) = false := by
    simp [List.isPrefixOf]
  have d3 : ("<style".data.isPrefixOf ('<' :: '/' :: (n.data ++ '>' :: rest))) = false := by
    simp [List.isPrefixOf]
  have d4 : ("<script".data.isPrefixOf ('<' :: '/' :: (n.data ++ '>' :: rest))) = false := by
    simp [List.isPrefixOf]
  obtain ⟨o, hclose⟩ := parse_close_tag_exact n rest hne' hnc'
  refine ⟨o, ?_⟩
  rw [hshape]
  simp only [nextLexeme, d1, d2, d3, d4, Bool.false_eq_true, if_false]
  rw [if_pos (by simp [List.isPrefixOf])]
  rw [hclose]
  rfl

/-! ### C7: single lexer steps and list-side helpers -/

theorem goLex_other_step (input : Chars) (f : Nat) (c : Char) (cs : Chars)
    (offset : Nat) (output : List HtmlElement) (stack : List String)
    (t : HtmlElement) (X : Chars) (o : Nat)
    (hstep : nextLexeme (c :: cs) = some (some t, X, o))
    (hmem : output.length < LEXEME_MEMORY_LIMIT)
    (hother : otherTok t = true) :
    goLex input (f + 1) (c :: cs) offset output stack
      = goLex input f X (offset + o) (output ++ [t]) stack := by
  simp only [goLex, hstep]
  rw [if_neg (by omega)]
  cases t with
  | OpenTag n a ie =>
    cases ie with
    | true => rfl
    | false => exact Bool.noConfusion hother
  | CloseTag n => exact Bool.noConfusion hother
  | DocType => rfl
  | Comment s => rfl
  | Text s => rfl
  | Script a c2 => rfl
  | Style a c2 => rfl
  | Directive nm a c2 => rfl

theorem goLex_push_step (input : Chars) (f : Nat) (c : Char) (cs : Chars)
    (offset : Nat) (output : List HtmlElement) (stack : List String)
    (n : String) (a : Attributes) (X : Chars) (o : Nat)
    (hstep : nextLexeme (c :: cs) = some (some (HtmlElement.OpenTag n a false), X, o))
    (hmem : output.length < LEXEME_MEMORY_LIMIT) :
    goLex input (f + 1) (c :: cs) offset output stack
      = goLex input f X (offset + o)
          (output ++ [HtmlElement.OpenTag n a false]) (n :: stack) := by
  simp only [goLex, hstep]
  rw [if_neg (by omega)]

theorem goLex_pop_step (input : Chars) (f : Nat) (c : Char) (cs : Chars)
    (offset : Nat) (output : List HtmlElement) (stack : List String)
    (n : String) (X : Chars) (o : Nat)
    (hstep : nextLexeme (c :: cs) = some (some (HtmlElement.CloseTag n), X, o))
    (hmem : output.length < LEXEME_MEMORY_LIMIT) :
    goLex input (f + 1) (c :: cs) offset output (n :: stack)
      = goLex input f X (offset + o) (output ++ [HtmlElement.CloseTag n]) stack := by
  simp only [goLex, hstep]
  rw [if_neg (by omega)]
  simp

theorem serTokC_ne_nil (reg : String → Attributes → String → String)
    (t : HtmlElement) (hok : tokOK t = true) : serTokC reg t ≠ [] := by
  cases t with
  | DocType => simp [serTokC]
  | Text s =>
    simp only [tokOK, Bool.and_eq_true, Bool.not_eq_true'] at hok
    obtain ⟨⟨hne, _⟩, _⟩ := hok
    simp only [serTokC]
    intro h
    rw [h] at hne
    simp at hne
  | OpenTag n a ie => cases ie <;> simp [serTokC]
  | CloseTag n => simp [serTokC]
  | Comment s => simp [tokOK] at hok
  | Script a c => simp [tokOK] at hok
  | Style a c => simp [tokOK] at hok
  | Directive nm a c => simp [tokOK] at hok

theorem serTokC_starts_lt (reg : String → Attributes → String → String)
    (t : HtmlElement) (hok : tokOK t = true) (hnt : isText t = false) :
    ∃ tl, serTokC reg t = '<' :: tl := by
  cases t with
  | DocType => exact ⟨"!DOCTYPE html>".data, rfl⟩
  | Text s => simp [isText] at hnt
  | OpenTag n a ie => cases ie <;> exact ⟨_, rfl⟩
  | CloseTag n => exact ⟨_, rfl⟩
  | Comment s => simp [tokOK] at hok
  | Script a c => simp [tokOK] at hok
  | Style a c => simp [tokOK] at hok
  | Directive nm a c => simp [tokOK] at hok

theorem adjOK_cons (x : HtmlElement) (l : List HtmlElement)
    (h : adjOK (x :: l) = true) : adjOK l = true := by
  cases l with
  | nil => rfl
  | cons y l2 =>
    cases x <;> cases y <;> first | exact h | exact Bool.noConfusion h

theorem adjOK_split :
    ∀ (l1 l2 : List HtmlElement), adjOK (l1 ++ l2) = true →
      adjOK l1 = true ∧ adjOK l2 = true := by
  intro l1
  induction l1 with
  | nil => intro l2 h; exact ⟨rfl, h⟩
  | cons x l1 ih =>
    intro l2 h
    have htail := adjOK_cons x (l1 ++ l2) h
    obtain ⟨h1, h2⟩ := ih l2 htail
    refine ⟨?_, h2⟩
    cases l1 with
    | nil => cases x <;> rfl
    | cons y l12 =>
      cases x <;> cases y <;> first | exact h1 | exact Bool.noConfusion h

theorem goLex_canon (reg : String → Attributes → String → String) (input : Chars) :
    ∀ (ts : List HtmlElement), WF ts →
    ∀ (rest : Chars) (k : Nat) (offset : Nat) (output : List HtmlElement)
      (stack : List String),
      ts.all tokOK = true → adjOK ts = true →
      (rest = [] ∨ ∃ r2, rest = '<' :: r2) →
      output.length + ts.length ≤ LEXEME_MEMORY_LIMIT →
      ∃ off2, goLex input (ts.length + k) (serAllC reg ts ++ rest) offset output stack
        = goLex input k rest off2 (output ++ ts) stack := by
  intro ts hwf
  induction hwf with
  | nil =>
    intro rest k offset output stack _ _ _ _
    refine ⟨offset, ?_⟩
    simp [serAllC]
  | other t ts2 hother hwf2 ih =>
    intro rest k offset output stack hall hadj hrest hbudget
    simp only [List.all_cons, Bool.and_eq_true] at hall
    obtain ⟨hok_t, hall2⟩ := hall
    have hadj2 : adjOK ts2 = true := adjOK_cons t ts2 hadj
    have hstepE : ∃ o, nextLexeme (serTokC reg t ++ (serAllC reg ts2 ++ rest))
        = some (some t, serAllC reg ts2 ++ rest, o) := by
      cases t with
      | DocType => exact nextLexeme_doctype _
      | OpenTag n a ie =>
        cases ie with
        | true => exact nextLexeme_open reg n a true _ hok_t
        | false => exact Bool.noConfusion hother
      | CloseTag n => exact Bool.noConfusion hother
      | Text s =>
        have hcond : serAllC reg ts2 ++ rest = [] ∨
            ∃ r2, serAllC reg ts2 ++ rest = '<' :: r2 := by
          cases ts2 with
          | nil =>
            rcases hrest with h | ⟨r2, h⟩
            · exact Or.inl (by simp [serAllC, h])
            · exact Or.inr ⟨r2, by simp [serAllC, h]⟩
          | cons t2 ts3 =>
            have hok2 : tokOK t2 = true := by
              simp only [List.all_cons, Bool.and_eq_true] at hall2
              exact hall2.1
            have hnt2 : isText t2 = false := by
              cases t2 with
              | Text s2 => exact Bool.noConfusion hadj
              | DocType => rfl
              | Comment s2 => rfl
              | OpenTag n2 a2 ie2 => rfl
              | CloseTag n2 => rfl
              | Script a2 c2 => rfl
              | Style a2 c2 => rfl
              | Directive nm2 a2 c2 => rfl
            obtain ⟨tl, htl⟩ := serTokC_starts_lt reg t2 hok2 hnt2
            refine Or.inr ⟨tl ++ (serAllC reg ts3 ++ rest), ?_⟩
            simp [serAllC, htl]
        exact ⟨s.data.length, nextLexeme_text s _ hok_t hcond⟩
      | Comment s => simp [tokOK] at hok_t
      | Script a c => simp [tokOK] at hok_t
      | Style a c => simp [tokOK] at hok_t
      | Directive nm a c => simp [tokOK] at hok_t
    obtain ⟨o, hstep⟩ := hstepE
    obtain ⟨c, cs, hcons⟩ : ∃ c cs,
        serTokC reg t ++ (serAllC reg ts2 ++ rest) = c :: cs := by
      rcases h2 : serTokC reg t with _ | ⟨c2, cs2⟩
      · exact absurd h2 (serTokC_ne_nil reg t hok_t)
      · exact ⟨c2, cs2 ++ (serAllC reg ts2 ++ rest), rfl⟩
    have hbudget2 : (output ++ [t]).length + ts2.length ≤ LEXEME_MEMORY_LIMIT := by
      simp at hbudget ⊢
      omega
    obtain ⟨off2, hIH⟩ := ih rest k (offset + o) (output ++ [t]) stack hall2 hadj2
      hrest hbudget2
    refine ⟨off2, ?_⟩
    have hshape : serAllC reg (t :: ts2) ++ rest
        = serTokC reg t ++ (serAllC reg ts2 ++ rest) := by
      simp [serAllC]
    have hlen : (t :: ts2).length + k = (ts2.length + k) + 1 := by
      simp
      omega
    rw [hshape, hlen, hcons]
    rw [hcons] at hstep
    rw [goLex_other_step input (ts2.length + k) c cs offset output stack t
      (serAllC reg ts2 ++ rest) o hstep (by simp at hbudget; omega) hother]
    rw [hIH]
    congr 1
    simp
  | pair n a inner rest2 hi hr ih_inner ih_rest =>
    intro rest k offset output stack hall hadj hrest hbudget
    simp only [List.all_cons, List.all_append, Bool.and_eq_true] at hall
    obtain ⟨⟨hok_open, hall_inner⟩, hok_close, hall_rest⟩ := hall
    have hadj_tail := adjOK_cons _ _ hadj
    obtain ⟨hadj_inner, hadj_cr⟩ := adjOK_split inner _ hadj_tail
    have hadj_rest : adjOK rest2 = true := adjOK_cons _ _ hadj_cr
    obtain ⟨o1, hstep1⟩ := nextLexeme_open reg n a false
      (serAllC reg inner ++ (serTokC reg (HtmlElement.CloseTag n)
        ++ (serAllC reg rest2 ++ rest))) hok_open
    obtain ⟨o2, hstep2⟩ := nextLexeme_close reg n (serAllC reg rest2 ++ rest) hok_close
    have hlb : output.length + (inner.length + rest2.length + 2)
        ≤ LEXEME_MEMORY_LIMIT := by
      simp at hbudget
      omega
    obtain ⟨offA, hIH1⟩ := ih_inner
      (serTokC reg (HtmlElement.CloseTag n) ++ (serAllC reg rest2 ++ rest))
      (rest2.length + 1 + k) (offset + o1)
      (output ++ [HtmlElement.OpenTag n a false]) (n :: stack)
      hall_inner hadj_inner
      (Or.inr ⟨'/' :: (n.data ++ '>' :: (serAllC reg rest2 ++ rest)), by simp [serTokC]⟩)
      (by simp; omega)
    obtain ⟨offB, hIH2⟩ := ih_rest rest k (offA + o2)
      (output ++ [HtmlElement.OpenTag n a false] ++ inner ++ [HtmlElement.CloseTag n])
      stack hall_rest hadj_rest hrest (by simp; omega)
    refine ⟨offB, ?_⟩
    have hshape : serAllC reg
          (HtmlElement.OpenTag n a false :: inner ++ HtmlElement.CloseTag n :: rest2) ++ rest
        = serTokC reg (HtmlElement.OpenTag n a false)
            ++ (serAllC reg inner ++ (serTokC reg (HtmlElement.CloseTag n)
              ++ (serAllC reg rest2 ++ rest))) := by
      simp [serAllC]
    have hlen : (HtmlElement.OpenTag n a false :: inner
          ++ HtmlElement.CloseTag n :: rest2).length + k
        = (inner.length + (rest2.length + 1 + k)) + 1 := by
      simp
      omega
    obtain ⟨c1, cs1, hcons1⟩ : ∃ c1 cs1,
        serTokC reg (HtmlElement.OpenTag n a false)
          ++ (serAllC reg inner ++ (serTokC reg (HtmlElement.CloseTag n)
            ++ (serAllC reg rest2 ++ rest))) = c1 :: cs1 :=
      ⟨'<', (n.data ++ serAttrsC a ++ ['>'])
        ++ (serAllC reg inner ++ (serTokC reg (HtmlElement.CloseTag n)
          ++ (serAllC reg rest2 ++ rest))), rfl⟩
    rw [hshape, hlen, hcons1]
    rw [hcons1] at hstep1
    rw [goLex_push_step input (inner.length + (rest2.length + 1 + k)) c1 cs1 offset
      output stack n a
      (serAllC reg inner ++ (serTokC reg (HtmlElement.CloseTag n)
        ++ (serAllC reg rest2 ++ rest))) o1 hstep1 (by omega)]
    rw [hIH1]
    have hlen2 : rest2.length + 1 + k = (rest2.length + k) + 1 := by omega
    obtain ⟨c2, cs2, hcons2⟩ : ∃ c2 cs2,
        serTokC reg (HtmlElement.CloseTag n) ++ (serAllC reg rest2 ++ rest)
          = c2 :: cs2 :=
      ⟨'<', '/' :: (n.data ++ ['>']) ++ (serAllC reg rest2 ++ rest), rfl⟩
    rw [hlen2, hcons2]
    rw [hcons2] at hstep2
    rw [goLex_pop_step input (rest2.length + k) c2 cs2 offA
      (output ++ [HtmlElement.OpenTag n a false] ++ inner) stack n
      (serAllC reg rest2 ++ rest) o2 hstep2 (by simp; omega)]
    rw [hIH2]
    congr 1
    simp

theorem serAllC_length_ge (reg : String → Attributes → String → String) :
    ∀ ts : List HtmlElement, ts.all tokOK = true →
      ts.length ≤ (serAllC reg ts).length := by
  intro ts
  induction ts with
  | nil => intro h; simp [serAllC]
  | cons t ts ih =>
    intro h
    simp only [List.all_cons, Bool.and_eq_true] at h
    have h2 := ih h.2
    have h3 : 1 ≤ (serTokC reg t).length := by
      cases hs : serTokC reg t with
      | nil => exact absurd hs (serTokC_ne_nil reg t h.1)
      | cons a b => simp
    simp only [serAllC, List.flatMap_cons, List.length_append, List.length_cons] at h2 ⊢
    omega

/-- **C7.** For any well-formed input — formalised as the serialization of
a token sequence `ts` whose tags are balanced (`balRun ts [] = some []`,
giving `N` matched tag pairs), whose tokens are individually canonical
(`tokOK`: names drawn from the tag-name alphabet and not starting `@`,
`style` or `script`, paired tags non-void, attribute keys distinct, values
quote-free and non-empty where quoted, text non-empty, `<`-free and not
all whitespace), with no two adjacent text tokens and at most
`LEXEME_MEMORY_LIMIT` tokens — `parse_html` succeeds on that input and
returns exactly `ts`, so serializing the returned sequence reproduces the
input verbatim (structural equivalence holds as identity). -/
theorem c7_lex_serialize_roundtrip
    (reg : String → Attributes → String → String) (ts : List HtmlElement)
    (hbal : balRun ts [] = some [])
    (hok : ts.all tokOK = true)
    (hadj : adjOK ts = true)
    (hlen : ts.length ≤ LEXEME_MEMORY_LIMIT) :
    parse_html (serialize reg ts).data = LexResult.ok ts := by
  have hwf : WF ts := balRun_WF ts hbal
  unfold parse_html
  rw [serialize_data]
  have hlenle : ts.length ≤ (serAllC reg ts).length := serAllC_length_ge reg ts hok
  obtain ⟨k, hk⟩ : ∃ k, (serAllC reg ts).length + 1 = ts.length + k :=
    ⟨(serAllC reg ts).length + 1 - ts.length, by omega⟩
  rw [hk]
  obtain ⟨off2, hrun⟩ := goLex_canon reg (serAllC reg ts) ts hwf [] k 0 [] []
    hok hadj (Or.inl rfl) (by simpa using hlen)
  rw [List.append_nil] at hrun
  rw [hrun]
  cases k <;> simp [goLex]

theorem c7_witness :
    balRun [HtmlElement.DocType,
        HtmlElement.OpenTag "div" [("id", "x")] false,
        HtmlElement.Text "hi", HtmlElement.CloseTag "div"] [] = some [] ∧
    parse_html (serialize (fun _ _ _ => "")
        [HtmlElement.DocType,
         HtmlElement.OpenTag "div" [("id", "x")] false,
         HtmlElement.Text "hi", HtmlElement.CloseTag "div"]).data
      = LexResult.ok
          [HtmlElement.DocType,
           HtmlElement.OpenTag "div" [("id", "x")] false,
           HtmlElement.Text "hi", HtmlElement.CloseTag "div"] :=
  ⟨by decide,
   c7_lex_serialize_roundtrip (fun _ _ _ => "")
     [HtmlElement.DocType,
      HtmlElement.OpenTag "div" [("id", "x")] false,
      HtmlElement.Text "hi", HtmlElement.CloseTag "div"]
     (by decide) (by decide) (by decide) (by decide)⟩
